import Mathlib

/-
Verification of the cursor-motion engine ("locators") of the aretext editor
core, following the design document.  The Go implementation of the locators
(the exec package cursor code) is absent from the provided sources, which
contain only its unit tests; the definitions below are therefore modelled
from the specification, and the test cases fix the concrete behavior.
-/

set_option maxRecDepth 10000

namespace Aretext

/-- Kind of a grapheme cluster, as far as the cursor engine distinguishes
clusters: line terminators, tabs, horizontal spaces, and everything else. -/
inductive GKind where
  | newline
  | tab
  | space
  | other
deriving DecidableEq, Repr

/-- Modelled from the spec: a grapheme cluster as surfaced by the external
text tree (design doc section 6).  The text tree and its Unicode
segmentation are external collaborators whose code is not among the given
sources; a cluster is abstracted to its byte width (a carriage-return plus
line-feed pair segments as a single terminator cluster of width two) and
the classification the locators inspect. -/
structure GC where
  width : Nat
  kind : GKind
deriving DecidableEq, Repr

instance : Inhabited GC := ⟨⟨1, GKind.other⟩⟩

/-- CursorState from the data model (design doc section 3): a byte offset
into the document plus the remembered virtual-column remainder. -/
structure CursorState where
  position : Nat
  logicalOffset : Nat
deriving DecidableEq, Repr

/-- Direction parameter shared by the symmetric locators. -/
inductive Direction where
  | forward
  | backward
deriving DecidableEq, Repr

/-- BufferState: the read-only view every locator consumes.  The document
is the text-tree snapshot flattened to its grapheme clusters, and the
configured tab width rides along as in the design doc (section 6). -/
structure BufferState where
  doc : List GC
  tabSize : Nat
  cursor : CursorState
deriving DecidableEq, Repr

/-- Total byte width of a list of grapheme clusters. -/
def docWidth (d : List GC) : Nat := (d.map GC.width).sum

/-- Validity of a document: every grapheme cluster occupies at least one
byte. -/
def ValidDoc (d : List GC) : Prop := ∀ gc ∈ d, 1 ≤ gc.width

/-- Decides whether a byte offset is a grapheme-cluster boundary of the
document, i.e. the cumulative width of some prefix of its cluster list. -/
def isBoundary : List GC → Nat → Bool
  | [], p => p == 0
  | gc :: rest, p => p == 0 || (decide (gc.width ≤ p) && isBoundary rest (p - gc.width))

/-- Clusters of the document from the given boundary offset on. -/
def suffixFrom : List GC → Nat → List GC
  | [], _ => []
  | gc :: rest, p => if p = 0 then gc :: rest else suffixFrom rest (p - gc.width)

/-- Modelled from the spec: the text-tree read primitive giving the cluster
that starts at a boundary position (none at end of document). -/
def clusterAt (d : List GC) (p : Nat) : Option GC :=
  (suffixFrom d p).head?

/-- Modelled from the spec: the text-tree read primitive giving the cluster
that ends at a boundary position (none at the start of the document). -/
def clusterBefore : List GC → Nat → Option GC
  | [], _ => none
  | gc :: rest, p =>
    if p = 0 then none
    else if p = gc.width then some gc
    else clusterBefore rest (p - gc.width)

instance (d : List GC) : Decidable (ValidDoc d) := by
  unfold ValidDoc; infer_instance

/-- Line of a document: its content clusters (none of which is a line
terminator) plus its terminator cluster, if any. -/
structure Line where
  content : List GC
  term : Option GC
deriving DecidableEq, Repr

instance : Inhabited Line := ⟨⟨[], none⟩⟩

/-- Clusters of a line, content first, then the terminator if present. -/
def lineGCs (l : Line) : List GC := l.content ++ l.term.toList

/-- Byte width of a line including its terminator. -/
def lineWidth (l : Line) : Nat := docWidth (lineGCs l)

/-- Splits a cluster list into lines at terminator clusters; the
accumulator holds the reversed content read so far on the current line.
The final line never carries a terminator. -/
def splitLinesAux : List GC → List GC → List Line
  | [], acc => [⟨acc.reverse, none⟩]
  | gc :: rest, acc =>
    if gc.kind = GKind.newline then ⟨acc.reverse, some gc⟩ :: splitLinesAux rest []
    else splitLinesAux rest (gc :: acc)

/-- Drops the final line of a split when it is completely empty, which
implements the POSIX end-of-file convention: a trailing terminator does
not open one more line for navigation purposes. -/
def trimLast : List Line → List Line
  | [] => []
  | [l] => if l.content = [] ∧ l.term = none then [] else [l]
  | l :: l2 :: rest => l :: trimLast (l2 :: rest)

/-- Modelled from the spec: the line decomposition the text tree exposes to
the locators, with the POSIX end-of-file line-counting rule applied
(design doc sections 4.3 and 6). -/
def posixLines (d : List GC) : List Line :=
  match splitLinesAux d [] with
  | [] => []
  | [l] => [l]
  | l :: l2 :: rest => l :: trimLast (l2 :: rest)

/-- Modelled from the spec: numLines of the text tree, POSIX convention
applied. -/
def numLines (d : List GC) : Nat := (posixLines d).length

/-- Line of the document at the given index (the empty terminator-less
line past the end). -/
def lineAt (d : List GC) (n : Nat) : Line := (posixLines d).getD n default

/-- Byte offset of the first cluster of line `n` of a line list; saturates
at the total width for indices past the last line. -/
def lineStartAux : List Line → Nat → Nat
  | [], _ => 0
  | _ :: _, 0 => 0
  | l :: rest, Nat.succ n => lineWidth l + lineStartAux rest n

/-- Modelled from the spec: lineStartPosition of the text tree. -/
def lineStartOf (d : List GC) (n : Nat) : Nat := lineStartAux (posixLines d) n

/-- Index of the line containing a byte offset in a line list, the last
line catching every offset at or past its start. -/
def lineNumAux : List Line → Nat → Nat
  | [], _ => 0
  | [_], _ => 0
  | l :: l2 :: rest, p =>
    if p < lineWidth l then 0 else lineNumAux (l2 :: rest) (p - lineWidth l) + 1

/-- Modelled from the spec: lineNumForPosition of the text tree. -/
def lineNumForPos (d : List GC) (p : Nat) : Nat := lineNumAux (posixLines d) p

/-- Byte offset one past the last content cluster of line `n`, i.e. the
position of its terminator (or of end of document on the final line). -/
def contentEndOf (d : List GC) (n : Nat) : Nat :=
  lineStartOf d n + docWidth (lineAt d n).content

/-- Visual width of one grapheme cluster when it is drawn starting at
visual column `col`: a tab expands to the next tab stop of the configured
tab size, anything else occupies one column. -/
def gcVisualWidth (tabSize col : Nat) (gc : GC) : Nat :=
  if gc.kind = GKind.tab then tabSize - col % tabSize else 1

/-- Visual column reached after laying out a whole cluster list starting
at visual column `col`. -/
def lineVisAux (tabSize : Nat) : List GC → Nat → Nat
  | [], col => col
  | gc :: rest, col => lineVisAux tabSize rest (col + gcVisualWidth tabSize col gc)

/-- Visual width of a line's content with tabs expanded from column 0. -/
def lineVisWidth (tabSize : Nat) (content : List GC) : Nat := lineVisAux tabSize content 0

/-- Modelled from the spec: the tab-aware visual column of byte offset `p`
on a line whose content starts at byte offset `cur` and visual column
`col` (design doc section 4.4 step 1). -/
def colOfPosAux (tabSize : Nat) : List GC → Nat → Nat → Nat → Nat
  | [], _, _, col => col
  | gc :: rest, cur, p, col =>
    if p ≤ cur then col
    else colOfPosAux tabSize rest (cur + gc.width) p (col + gcVisualWidth tabSize col gc)

/-- Modelled from the spec: the landing scan of the vertical locator
(design doc section 4.4 step 3).  Walks the target line's content from
byte offset `pos` and visual column `col` toward visual column `target`;
lands on the first cluster whose visual span contains the target column,
or on the last content cluster (the line start when the line is empty)
with the leftover columns as the logical offset. -/
def advanceToCol (tabSize : Nat) : List GC → Nat → Nat → Nat → Nat × Nat
  | [], pos, col, target => (pos, target - col)
  | gc :: rest, pos, col, target =>
    if target < col + gcVisualWidth tabSize col gc then (pos, target - col)
    else
      match rest with
      | [] => (pos, target - col)
      | gc2 :: rest2 =>
        advanceToCol tabSize (gc2 :: rest2) (pos + gc.width) (col + gcVisualWidth tabSize col gc) target

/-- Shared epilogue of the non-vertical locators: a changed position
resets the logical offset, an unchanged one preserves it (design doc
sections 3 and 8). -/
def moveTo (c : CursorState) (p : Nat) : CursorState :=
  if p = c.position then c else ⟨p, 0⟩

/-- Modelled from the spec: the forward scan of CharInLineLocator (design
doc section 4.1).  Advances cluster by cluster within the line; without
the flag it stalls on the last content cluster, with the flag it may land
exactly on the terminator or end-of-file position. -/
def nextCharInLine (d : List GC) : Nat → Nat → Bool → Nat
  | pos, 0, _ => pos
  | pos, count + 1, inc =>
    match clusterAt d pos with
    | none => pos
    | some gc =>
      if gc.kind = GKind.newline then pos
      else
        match clusterAt d (pos + gc.width) with
        | none => if inc then pos + gc.width else pos
        | some gc2 =>
          if gc2.kind = GKind.newline then (if inc then pos + gc.width else pos)
          else nextCharInLine d (pos + gc.width) count inc

/-- Modelled from the spec: the backward scan of CharInLineLocator (design
doc section 4.1) as fixed by its tests.  Steps back cluster by cluster;
at the line start the flag decides whether the scan may land on the
preceding line's terminator (used by backspace to join lines) or stalls
at the first content cluster. -/
def prevCharInLine (d : List GC) : Nat → Nat → Bool → Nat
  | pos, 0, _ => pos
  | pos, count + 1, inc =>
    match clusterBefore d pos with
    | none => pos
    | some gc =>
      if gc.kind = GKind.newline then (if inc then pos - gc.width else pos)
      else prevCharInLine d (pos - gc.width) count inc

/-- Modelled from the spec: the corrective scan of OntoLineLocator (design
doc section 4.2).  A cursor at or past the terminator position of its line
is pulled back onto the start of the line's last content cluster; an empty
line keeps the cursor on its own terminator position. -/
def closestCharOnLine (d : List GC) (pos : Nat) : Nat :=
  let n := lineNumForPos d pos
  if pos < contentEndOf d n then pos
  else
    match (lineAt d n).content.getLast? with
    | none => lineStartOf d n
    | some gc => contentEndOf d n - gc.width

/-- Modelled from the spec: NonWhitespaceOrNewlineLocator's scan (design
doc section 4.6): skip horizontal whitespace clusters forward, stopping at
the first other cluster, at a terminator, or at end of document. -/
def nonWsAux : List GC → Nat → Nat
  | [], pos => pos
  | gc :: rest, pos =>
    if gc.kind = GKind.space ∨ gc.kind = GKind.tab then nonWsAux rest (pos + gc.width) else pos

/-- Modelled from the spec: the eight-variant closed locator vocabulary
(design doc sections 2 and 4). -/
inductive Locator where
  | charInLine (dir : Direction) (count : Nat) (includeEndOfLineOrFile : Bool)
  | ontoLine
  | relativeLineStart (dir : Direction) (count : Nat)
  | relativeLine (dir : Direction) (count : Nat)
  | lineBoundary (dir : Direction) (includeEndOfLineOrFile : Bool)
  | nonWhitespaceOrNewline
  | lineNum (lineNum : Nat)
  | lastLine
deriving DecidableEq, Repr

/-- Target line of a relative vertical motion: `count` lines away in the
direction, clamped to the valid line range. -/
def relativeTargetLine (dir : Direction) (count cur lastLine : Nat) : Nat :=
  match dir with
  | Direction.forward => min (cur + count) lastLine
  | Direction.backward => cur - count

/-- Modelled from the spec: RelativeLineLocator (design doc section 4.4).
Saves the cursor's visual column (real column plus logical offset), jumps
`count` lines, and walks the target line to the saved column; a clamped
move (already at the boundary line) leaves the cursor, including its
logical offset, unchanged. -/
def locateRelativeLine (dir : Direction) (count : Nat) (d : List GC) (tabSize : Nat)
    (c : CursorState) : CursorState :=
  let cur := lineNumForPos d c.position
  let target := relativeTargetLine dir count cur (numLines d - 1)
  if target = cur then c
  else
    let targetCol :=
      colOfPosAux tabSize (lineAt d cur).content (lineStartOf d cur) c.position 0 +
        c.logicalOffset
    let r := advanceToCol tabSize (lineAt d target).content (lineStartOf d target) 0 targetCol
    ⟨r.1, r.2⟩

/-- Modelled from the spec: Locate, the uniform contract of the eight
locators (design doc sections 2 and 4). -/
def locate : Locator → BufferState → CursorState
  | Locator.charInLine Direction.forward count inc, s =>
    moveTo s.cursor (nextCharInLine s.doc s.cursor.position count inc)
  | Locator.charInLine Direction.backward count inc, s =>
    moveTo s.cursor (prevCharInLine s.doc s.cursor.position count inc)
  | Locator.ontoLine, s =>
    moveTo s.cursor (closestCharOnLine s.doc s.cursor.position)
  | Locator.relativeLineStart dir count, s =>
    moveTo s.cursor
      (lineStartOf s.doc
        (relativeTargetLine dir count (lineNumForPos s.doc s.cursor.position)
          (numLines s.doc - 1)))
  | Locator.relativeLine dir count, s =>
    locateRelativeLine dir count s.doc s.tabSize s.cursor
  | Locator.lineBoundary Direction.backward _, s =>
    moveTo s.cursor (lineStartOf s.doc (lineNumForPos s.doc s.cursor.position))
  | Locator.lineBoundary Direction.forward inc, s =>
    let n := lineNumForPos s.doc s.cursor.position
    moveTo s.cursor
      (if inc then contentEndOf s.doc n
       else
         match (lineAt s.doc n).content.getLast? with
         | none => lineStartOf s.doc n
         | some gc => contentEndOf s.doc n - gc.width)
  | Locator.nonWhitespaceOrNewline, s =>
    moveTo s.cursor (nonWsAux (suffixFrom s.doc s.cursor.position) s.cursor.position)
  | Locator.lineNum n, s =>
    moveTo s.cursor (lineStartOf s.doc (min n (numLines s.doc - 1)))
  | Locator.lastLine, s =>
    moveTo s.cursor (lineStartOf s.doc (numLines s.doc - 1))

/-! Basic arithmetic of byte widths and cluster boundaries. -/

theorem docWidth_nil : docWidth [] = 0 := rfl

theorem docWidth_cons (gc : GC) (rest : List GC) :
    docWidth (gc :: rest) = gc.width + docWidth rest := by
  simp [docWidth]

theorem docWidth_append (xs ys : List GC) :
    docWidth (xs ++ ys) = docWidth xs + docWidth ys := by
  simp [docWidth]

theorem validDoc_take {d : List GC} (hv : ValidDoc d) (i : Nat) : ValidDoc (d.take i) :=
  fun gc hg => hv gc (List.take_subset i d hg)

theorem validDoc_append_left {xs ys : List GC} (hv : ValidDoc (xs ++ ys)) : ValidDoc xs :=
  fun gc hg => hv gc (by simp [hg])

theorem validDoc_append_right {xs ys : List GC} (hv : ValidDoc (xs ++ ys)) : ValidDoc ys :=
  fun gc hg => hv gc (by simp [hg])

theorem isBoundary_zero (d : List GC) : isBoundary d 0 = true := by
  cases d <;> simp [isBoundary]

theorem isBoundary_iff {d : List GC} {p : Nat} :
    isBoundary d p = true ↔ ∃ i, i ≤ d.length ∧ p = docWidth (d.take i) := by
  induction d generalizing p with
  | nil =>
    simp only [isBoundary, beq_iff_eq, List.length_nil, List.take_nil]
    constructor
    · intro h; exact ⟨0, Nat.le_refl 0, by simp [h, docWidth_nil]⟩
    · rintro ⟨i, -, h⟩; simp [docWidth_nil] at h; exact h
  | cons gc rest ih =>
    simp only [isBoundary, Bool.or_eq_true, beq_iff_eq, Bool.and_eq_true, decide_eq_true_eq]
    constructor
    · rintro (h | ⟨h1, h2⟩)
      · exact ⟨0, Nat.zero_le _, by simp [h, docWidth_nil]⟩
      · obtain ⟨j, hj, hw⟩ := ih.mp h2
        refine ⟨j + 1, by simpa using hj, ?_⟩
        simp only [List.take_succ_cons, docWidth_cons]
        omega
    · rintro ⟨i, hi, hp⟩
      cases i with
      | zero => left; simpa [docWidth_nil] using hp
      | succ j =>
        right
        simp only [List.take_succ_cons, docWidth_cons] at hp
        refine ⟨by omega, ih.mpr ⟨j, by simpa using hi, by omega⟩⟩

theorem isBoundary_le {d : List GC} {p : Nat} (h : isBoundary d p = true) : p ≤ docWidth d := by
  obtain ⟨i, hi, rfl⟩ := isBoundary_iff.mp h
  calc docWidth (d.take i) ≤ docWidth (d.take i) + docWidth (d.drop i) := Nat.le_add_right _ _
    _ = docWidth d := by rw [← docWidth_append, List.take_append_drop]

theorem isBoundary_take {d : List GC} (i : Nat) : isBoundary d (docWidth (d.take i)) = true := by
  refine isBoundary_iff.mpr ⟨min i d.length, Nat.min_le_right _ _, ?_⟩
  rw [show d.take (min i d.length) = d.take i from List.take_eq_take.mpr (by omega)]

theorem isBoundary_prefixWidth (xs ys : List GC) : isBoundary (xs ++ ys) (docWidth xs) = true := by
  have := isBoundary_take (d := xs ++ ys) xs.length
  rwa [List.take_left] at this

theorem suffixFrom_zero (d : List GC) : suffixFrom d 0 = d := by
  cases d <;> simp [suffixFrom]

theorem suffixFrom_append {xs : List GC} (ys : List GC) (hv : ValidDoc xs) :
    suffixFrom (xs ++ ys) (docWidth xs) = ys := by
  induction xs with
  | nil => simpa [docWidth_nil] using suffixFrom_zero ys
  | cons gc rest ih =>
    have hw : 1 ≤ gc.width := hv gc (by simp)
    have hne : docWidth (gc :: rest) ≠ 0 := by rw [docWidth_cons]; omega
    have hsub : docWidth (gc :: rest) - gc.width = docWidth rest := by rw [docWidth_cons]; omega
    simp only [List.cons_append, suffixFrom, if_neg hne, hsub]
    exact ih (fun g hg => hv g (by simp [hg]))

theorem clusterAt_prefixWidth {xs : List GC} (ys : List GC) (hv : ValidDoc xs) :
    clusterAt (xs ++ ys) (docWidth xs) = ys.head? := by
  unfold clusterAt; rw [suffixFrom_append ys hv]

theorem clusterAt_boundary_step {d : List GC} {p : Nat} {gc : GC}
    (hv : ValidDoc d) (hb : isBoundary d p = true) (hc : clusterAt d p = some gc) :
    isBoundary d (p + gc.width) = true ∧ p + gc.width ≤ docWidth d := by
  obtain ⟨i, hi, rfl⟩ := isBoundary_iff.mp hb
  have h1 : clusterAt d (docWidth (d.take i)) = (d.drop i).head? := by
    have := @clusterAt_prefixWidth (d.take i) (d.drop i) (validDoc_take hv i)
    rwa [List.take_append_drop] at this
  rw [hc] at h1
  have h2 : d[i]? = some gc := by
    rw [← List.head?_drop]; exact h1.symm
  have hlen : i < d.length := by
    by_contra hcon
    rw [List.getElem?_eq_none (by omega)] at h2
    exact Option.noConfusion h2
  have h3 : d.take (i + 1) = d.take i ++ [gc] := by
    rw [List.take_succ, h2]; rfl
  have hb2 : isBoundary d (docWidth (d.take i) + gc.width) = true := by
    have := isBoundary_take (d := d) (i + 1)
    rwa [h3, docWidth_append, docWidth_cons, docWidth_nil, Nat.add_zero] at this
  exact ⟨hb2, isBoundary_le hb2⟩

theorem clusterBefore_zero (d : List GC) : clusterBefore d 0 = none := by
  cases d <;> simp [clusterBefore]

theorem clusterBefore_at {xs : List GC} (gc : GC) (ys : List GC)
    (hv : ValidDoc (xs ++ gc :: ys)) :
    clusterBefore (xs ++ gc :: ys) (docWidth xs + gc.width) = some gc := by
  induction xs with
  | nil =>
    have hw : 1 ≤ gc.width := hv gc (by simp)
    simp only [List.nil_append, docWidth_nil, Nat.zero_add, clusterBefore]
    have h0 : ¬(gc.width = 0) := by omega
    rw [if_neg h0]
    simp
  | cons z rest ih =>
    have hw : 1 ≤ gc.width := hv gc (by simp)
    have hp : docWidth (z :: rest) + gc.width ≠ 0 := by rw [docWidth_cons]; omega
    have hz : docWidth (z :: rest) + gc.width ≠ z.width := by rw [docWidth_cons]; omega
    simp only [List.cons_append, clusterBefore, if_neg hp, if_neg hz]
    have hsub : docWidth (z :: rest) + gc.width - z.width = docWidth rest + gc.width := by
      rw [docWidth_cons]; omega
    rw [hsub]
    exact ih (fun g hg => hv g (by simp at hg ⊢; tauto))

theorem clusterBefore_boundary_step {d : List GC} {p : Nat} {gc : GC}
    (hv : ValidDoc d) (hb : isBoundary d p = true) (hc : clusterBefore d p = some gc) :
    gc.width ≤ p ∧ isBoundary d (p - gc.width) = true := by
  obtain ⟨i, hi, rfl⟩ := isBoundary_iff.mp hb
  cases i with
  | zero => simp [docWidth_nil, clusterBefore_zero] at hc
  | succ j =>
    have hlen : j < d.length := by omega
    have h2 : d[j]? = some d[j] := List.getElem?_eq_getElem hlen
    have h3 : d.take (j + 1) = d.take j ++ [d[j]] := by
      rw [List.take_succ, h2]; rfl
    have h4 : d = d.take j ++ d[j] :: d.drop (j + 1) := by
      conv_lhs => rw [← List.take_append_drop (j + 1) d]
      rw [h3, List.append_assoc]; rfl
    have h5 : clusterBefore d (docWidth (d.take j) + d[j].width) = some d[j] := by
      have := @clusterBefore_at (d.take j) d[j] (d.drop (j + 1)) (h4 ▸ hv)
      rwa [← h4] at this
    have hpw : docWidth (d.take (j + 1)) = docWidth (d.take j) + d[j].width := by
      rw [h3, docWidth_append, docWidth_cons, docWidth_nil, Nat.add_zero]
    -- identify gc with the cluster at index j
    rw [hpw] at hc
    rw [h5] at hc
    have hgc : d[j] = gc := by injection hc
    constructor
    · rw [← hgc, hpw]; omega
    · rw [← hgc]
      have heq : docWidth (d.take (j + 1)) - d[j].width = docWidth (d.take j) := by
        rw [hpw]; omega
      rw [heq]; exact isBoundary_take j

/-! Structure of the line decomposition. -/

theorem lineWidth_eq (l : Line) : lineWidth l = docWidth l.content + docWidth l.term.toList := by
  simp [lineWidth, lineGCs, docWidth_append]

theorem splitLinesAux_ne_nil (d acc : List GC) : splitLinesAux d acc ≠ [] := by
  induction d generalizing acc with
  | nil => simp [splitLinesAux]
  | cons gc rest ih =>
    simp only [splitLinesAux]
    split
    · simp
    · exact ih _

theorem splitLinesAux_flatten (d acc : List GC) :
    ((splitLinesAux d acc).map lineGCs).flatten = acc.reverse ++ d := by
  induction d generalizing acc with
  | nil => simp [splitLinesAux, lineGCs]
  | cons gc rest ih =>
    simp only [splitLinesAux]
    by_cases h : gc.kind = GKind.newline
    · rw [if_pos h]
      simp only [List.map_cons, List.flatten_cons, ih]
      simp [lineGCs]
    · rw [if_neg h]
      rw [ih]
      simp

theorem trimLast_flatten (L : List Line) :
    ((trimLast L).map lineGCs).flatten = (L.map lineGCs).flatten := by
  induction L with
  | nil => rfl
  | cons l rest ih =>
    cases rest with
    | nil =>
      simp only [trimLast]
      split
      · rename_i h
        simp [lineGCs, h.1, h.2]
      · rfl
    | cons l2 rest2 =>
      simp only [trimLast, List.map_cons, List.flatten_cons]
      rw [ih]
      simp

theorem trimLast_eq_self_or_dropLast (L : List Line) :
    trimLast L = L ∨ trimLast L = L.dropLast := by
  induction L with
  | nil => left; rfl
  | cons l rest ih =>
    cases rest with
    | nil =>
      simp only [trimLast]
      split
      · right; rfl
      · left; rfl
    | cons l2 rest2 =>
      rcases ih with h | h
      · left; simp only [trimLast, h]
      · right
        simp only [trimLast, h]
        rfl

theorem posixLines_ne_nil (d : List GC) : posixLines d ≠ [] := by
  unfold posixLines
  split
  · rename_i heq; exact absurd heq (splitLinesAux_ne_nil d [])
  · simp
  · simp

theorem posixLines_eq_raw_or_dropLast (d : List GC) :
    posixLines d = splitLinesAux d [] ∨ posixLines d = (splitLinesAux d []).dropLast := by
  unfold posixLines
  split
  · rename_i heq; exact absurd heq (splitLinesAux_ne_nil d [])
  · rename_i l heq; left; rw [heq]
  · rename_i l l2 rest heq
    rcases trimLast_eq_self_or_dropLast (l2 :: rest) with h | h
    · left; rw [heq, h]
    · right; rw [heq, h]; rfl

theorem posixLines_flatten (d : List GC) : ((posixLines d).map lineGCs).flatten = d := by
  have h := splitLinesAux_flatten d []
  simp only [List.reverse_nil, List.nil_append] at h
  unfold posixLines
  split
  · rename_i heq; exact absurd heq (splitLinesAux_ne_nil d [])
  · rename_i l heq; rw [heq] at h; exact h
  · rename_i l l2 rest heq
    rw [heq] at h
    simp only [List.map_cons, List.flatten_cons] at h ⊢
    rw [trimLast_flatten]
    exact h

theorem posixLines_subset {d : List GC} {l : Line} (h : l ∈ posixLines d) :
    l ∈ splitLinesAux d [] := by
  rcases posixLines_eq_raw_or_dropLast d with heq | heq
  · rwa [heq] at h
  · rw [heq] at h; exact List.dropLast_subset _ h

theorem splitLinesAux_content_kind (d acc : List GC)
    (hacc : ∀ gc ∈ acc, gc.kind ≠ GKind.newline) :
    ∀ l ∈ splitLinesAux d acc, ∀ gc ∈ l.content, gc.kind ≠ GKind.newline := by
  induction d generalizing acc with
  | nil =>
    intro l hl gc hgc
    simp only [splitLinesAux, List.mem_singleton] at hl
    subst hl
    exact hacc gc (by simpa using hgc)
  | cons g rest ih =>
    intro l hl gc hgc
    simp only [splitLinesAux] at hl
    by_cases h : g.kind = GKind.newline
    · rw [if_pos h] at hl
      rcases List.mem_cons.mp hl with rfl | hl2
      · exact hacc gc (by simpa using hgc)
      · exact ih [] (by simp) l hl2 gc hgc
    · rw [if_neg h] at hl
      refine ih (g :: acc) ?_ l hl gc hgc
      intro g2 hg2
      rcases List.mem_cons.mp hg2 with rfl | h2
      · exact h
      · exact hacc g2 h2

theorem posix_content_kind {d : List GC} {l : Line} (hl : l ∈ posixLines d) :
    ∀ gc ∈ l.content, gc.kind ≠ GKind.newline :=
  splitLinesAux_content_kind d [] (by simp) l (posixLines_subset hl)

theorem splitLinesAux_term_kind (d acc : List GC) :
    ∀ l ∈ splitLinesAux d acc, ∀ gc, l.term = some gc → gc.kind = GKind.newline := by
  induction d generalizing acc with
  | nil =>
    intro l hl gc hgc
    simp only [splitLinesAux, List.mem_singleton] at hl
    subst hl
    simp at hgc
  | cons g rest ih =>
    intro l hl gc hgc
    simp only [splitLinesAux] at hl
    by_cases h : g.kind = GKind.newline
    · rw [if_pos h] at hl
      rcases List.mem_cons.mp hl with rfl | hl2
      · simp at hgc; rwa [← hgc]
      · exact ih [] l hl2 gc hgc
    · rw [if_neg h] at hl
      exact ih (g :: acc) l hl gc hgc

theorem posix_term_kind {d : List GC} {l : Line} (hl : l ∈ posixLines d) :
    ∀ gc, l.term = some gc → gc.kind = GKind.newline :=
  splitLinesAux_term_kind d [] l (posixLines_subset hl)

theorem posix_valid {d : List GC} (hv : ValidDoc d) {l : Line} (hl : l ∈ posixLines d) :
    ValidDoc (lineGCs l) := by
  intro gc hgc
  apply hv
  have hmem : gc ∈ ((posixLines d).map lineGCs).flatten :=
    List.mem_flatten.mpr ⟨lineGCs l, List.mem_map_of_mem lineGCs hl, hgc⟩
  rwa [posixLines_flatten] at hmem

theorem splitLinesAux_term_isSome (d acc : List GC) :
    ∀ i, i + 1 < (splitLinesAux d acc).length →
      ((splitLinesAux d acc).getD i default).term.isSome := by
  induction d generalizing acc with
  | nil => intro i h; simp [splitLinesAux] at h
  | cons g rest ih =>
    intro i h
    simp only [splitLinesAux] at h ⊢
    by_cases hk : g.kind = GKind.newline
    · rw [if_pos hk] at h ⊢
      cases i with
      | zero => simp
      | succ j =>
        simp only [List.getD_cons_succ]
        exact ih [] j (by simpa using h)
    · rw [if_neg hk] at h ⊢
      exact ih (g :: acc) i h

theorem posix_term_isSome (d : List GC) (i : Nat) (h : i + 1 < numLines d) :
    ((posixLines d).getD i default).term.isSome := by
  have hlen : numLines d ≤ (splitLinesAux d []).length := by
    unfold numLines
    rcases posixLines_eq_raw_or_dropLast d with heq | heq <;> rw [heq] <;>
      first
        | exact Nat.le_refl _
        | (rw [List.length_dropLast]; omega)
  have hgd : (posixLines d).getD i default = (splitLinesAux d []).getD i default := by
    rcases posixLines_eq_raw_or_dropLast d with heq | heq
    · rw [heq]
    · rw [heq]
      have hi : i < (splitLinesAux d []).dropLast.length := by
        unfold numLines at h
        rw [heq] at h
        omega
      rw [List.getD_eq_getElem _ _ hi,
        List.getD_eq_getElem _ _ (by simpa using Nat.lt_of_lt_of_le hi (by simp [Nat.sub_le])),
        List.getElem_dropLast]
  rw [hgd]
  exact splitLinesAux_term_isSome d [] i (by omega)

theorem not_mem_trimLast_empty (L : List Line)
    (h : ∀ i, i + 1 < L.length → (L.getD i default).term.isSome) :
    (⟨[], none⟩ : Line) ∉ trimLast L := by
  induction L with
  | nil => simp [trimLast]
  | cons l rest ih =>
    cases rest with
    | nil =>
      simp only [trimLast]
      split
      · simp
      · rename_i hcond
        intro hmem
        simp only [List.mem_singleton] at hmem
        apply hcond
        rw [← hmem]
        exact ⟨rfl, rfl⟩
    | cons l2 rest2 =>
      simp only [trimLast]
      intro hmem
      rcases List.mem_cons.mp hmem with heq | hmem2
      · have h0 := h 0 (by simp)
        rw [List.getD_cons_zero, ← heq] at h0
        simp at h0
      · refine absurd hmem2 (ih ?_)
        intro i hi
        have hh := h (i + 1) (by simpa using hi)
        simpa [List.getD_cons_succ] using hh

theorem posix_empty_line_nil {d : List GC} {l : Line} (hl : l ∈ posixLines d)
    (hc : l.content = []) (ht : l.term = none) : d = [] := by
  have hl0 : l = ⟨[], none⟩ := by
    cases l
    simp only at hc ht
    simp [hc, ht]
  subst hl0
  unfold posixLines at hl
  rcases hraw : splitLinesAux d [] with _ | ⟨l0, rest⟩
  · exact absurd hraw (splitLinesAux_ne_nil d [])
  · rcases rest with _ | ⟨l1, rest2⟩
    · rw [hraw] at hl
      simp only [List.mem_singleton] at hl
      have hfl := splitLinesAux_flatten d []
      rw [hraw, ← hl] at hfl
      simpa [lineGCs] using hfl.symm
    · rw [hraw] at hl
      simp only [List.mem_cons] at hl
      rcases hl with heq | hmem2
      · have h0 := splitLinesAux_term_isSome d [] 0 (by rw [hraw]; simp)
        rw [hraw, List.getD_cons_zero, ← heq] at h0
        simp at h0
      · have hs : ∀ i, i + 1 < (l1 :: rest2).length →
            ((l1 :: rest2).getD i default).term.isSome := by
          intro i hi
          have hh := splitLinesAux_term_isSome d [] (i + 1) (by rw [hraw]; simpa using hi)
          rw [hraw] at hh
          simpa [List.getD_cons_succ] using hh
        exact absurd hmem2 (not_mem_trimLast_empty _ hs)

/-! Span arithmetic of line starts and line numbers. -/

theorem lineStartAux_zero (L : List Line) : lineStartAux L 0 = 0 := by
  cases L <;> rfl

theorem lineNumAux_le (L : List Line) (p : Nat) : lineNumAux L p ≤ L.length - 1 := by
  induction L generalizing p with
  | nil => simp [lineNumAux]
  | cons l rest ih =>
    cases rest with
    | nil => simp [lineNumAux]
    | cons l2 rest2 =>
      simp only [lineNumAux]
      split
      · simp
      · have hh := ih (p - lineWidth l)
        simp only [List.length_cons] at hh ⊢
        omega

theorem lineStartAux_lineNum_le (L : List Line) (p : Nat) :
    lineStartAux L (lineNumAux L p) ≤ p := by
  induction L generalizing p with
  | nil => simp [lineNumAux, lineStartAux]
  | cons l rest ih =>
    cases rest with
    | nil => simp [lineNumAux, lineStartAux_zero]
    | cons l2 rest2 =>
      simp only [lineNumAux]
      split
      · simp [lineStartAux_zero]
      · rename_i hp
        show lineWidth l + lineStartAux (l2 :: rest2) (lineNumAux (l2 :: rest2) (p - lineWidth l)) ≤ p
        have hh := ih (p - lineWidth l)
        omega

theorem lt_lineStartAux_succ (L : List Line) (p : Nat)
    (h : lineNumAux L p + 1 < L.length) :
    p < lineStartAux L (lineNumAux L p + 1) := by
  induction L generalizing p with
  | nil => simp at h
  | cons l rest ih =>
    cases rest with
    | nil => simp [lineNumAux] at h
    | cons l2 rest2 =>
      simp only [lineNumAux] at h ⊢
      by_cases hp : p < lineWidth l
      · rw [if_pos hp]
        show p < lineWidth l + lineStartAux (l2 :: rest2) 0
        rw [lineStartAux_zero]
        omega
      · rw [if_neg hp] at h ⊢
        show p < lineWidth l +
          lineStartAux (l2 :: rest2) (lineNumAux (l2 :: rest2) (p - lineWidth l) + 1)
        have hh := ih (p - lineWidth l) (by simp only [List.length_cons] at h ⊢; omega)
        omega

theorem lineNumAux_eq_of_span (L : List Line) (p n : Nat) (hn : n < L.length)
    (h1 : lineStartAux L n ≤ p)
    (h2 : p < lineStartAux L (n + 1) ∨ n + 1 = L.length) :
    lineNumAux L p = n := by
  induction L generalizing p n with
  | nil => simp at hn
  | cons l rest ih =>
    cases rest with
    | nil =>
      simp only [List.length_cons, List.length_nil] at hn
      simp only [lineNumAux]
      omega
    | cons l2 rest2 =>
      cases n with
      | zero =>
        rcases h2 with h2 | h2
        · have e1 : lineStartAux (l :: l2 :: rest2) 1 = lineWidth l := by
            show lineWidth l + lineStartAux (l2 :: rest2) 0 = lineWidth l
            rw [lineStartAux_zero]
            omega
          rw [e1] at h2
          simp [lineNumAux, h2]
        · simp at h2
      | succ m =>
        have e1 : lineStartAux (l :: l2 :: rest2) (m + 1) =
            lineWidth l + lineStartAux (l2 :: rest2) m := rfl
        have e2 : lineStartAux (l :: l2 :: rest2) (m + 2) =
            lineWidth l + lineStartAux (l2 :: rest2) (m + 1) := rfl
        have hw : lineWidth l ≤ p := by rw [e1] at h1; omega
        simp only [lineNumAux, if_neg (by omega : ¬p < lineWidth l)]
        have hrec : lineNumAux (l2 :: rest2) (p - lineWidth l) = m := by
          refine ih (p - lineWidth l) m (by simp only [List.length_cons] at hn ⊢; omega) ?_ ?_
          · rw [e1] at h1; omega
          · rcases h2 with h2 | h2
            · left; rw [e2] at h2; omega
            · right; simp only [List.length_cons] at h2 ⊢; omega
        omega

theorem lineStartAux_succ (L : List Line) (n : Nat) (hn : n < L.length) :
    lineStartAux L (n + 1) = lineStartAux L n + lineWidth (L.getD n default) := by
  induction L generalizing n with
  | nil => simp at hn
  | cons l rest ih =>
    cases n with
    | zero =>
      show lineWidth l + lineStartAux rest 0 = _
      rw [lineStartAux_zero, lineStartAux_zero]
      simp
    | succ m =>
      show lineWidth l + lineStartAux rest (m + 1) =
        lineWidth l + lineStartAux rest m + lineWidth ((l :: rest).getD (m + 1) default)
      rw [ih m (by simpa using hn)]
      simp only [List.getD_cons_succ]
      omega

theorem lineStartAux_mono (L : List Line) {n m : Nat} (h : n ≤ m) :
    lineStartAux L n ≤ lineStartAux L m := by
  induction L generalizing n m with
  | nil => simp [lineStartAux]
  | cons l rest ih =>
    cases n with
    | zero => rw [lineStartAux_zero]; exact Nat.zero_le _
    | succ n2 =>
      cases m with
      | zero => omega
      | succ m2 =>
        show lineWidth l + lineStartAux rest n2 ≤ lineWidth l + lineStartAux rest m2
        have hh := ih (n := n2) (m := m2) (by omega)
        omega

theorem lineStartAux_of_le (L : List Line) {n : Nat} (h : L.length ≤ n) :
    lineStartAux L n = (L.map lineWidth).sum := by
  induction L generalizing n with
  | nil => cases n <;> simp [lineStartAux]
  | cons l rest ih =>
    cases n with
    | zero => simp at h
    | succ m =>
      show lineWidth l + lineStartAux rest m = _
      rw [ih (by simpa using h)]
      simp

theorem docWidth_lines (L : List Line) :
    docWidth (L.map lineGCs).flatten = (L.map lineWidth).sum := by
  induction L with
  | nil => rfl
  | cons l rest ih => simp [List.flatten_cons, docWidth_append, ih, lineWidth]

theorem docWidth_eq_lineStartAux (d : List GC) :
    docWidth d = lineStartAux (posixLines d) (numLines d) := by
  have h : numLines d = (posixLines d).length := rfl
  rw [h, lineStartAux_of_le _ (Nat.le_refl _), ← docWidth_lines, posixLines_flatten]

theorem lineStartAux_le_sum (L : List Line) (n : Nat) :
    lineStartAux L n ≤ (L.map lineWidth).sum := by
  calc lineStartAux L n ≤ lineStartAux L (max n L.length) :=
        lineStartAux_mono L (Nat.le_max_left _ _)
    _ = _ := lineStartAux_of_le L (Nat.le_max_right _ _)

theorem lineStartOf_le_docWidth (d : List GC) (n : Nat) : lineStartOf d n ≤ docWidth d := by
  rw [docWidth_eq_lineStartAux]
  exact lineStartAux_le_sum _ n |>.trans
    (by rw [← lineStartAux_of_le _ (Nat.le_refl _)]; exact Nat.le_refl _)

/-! Bridge between flat cluster positions and the line decomposition. -/

theorem isBoundary_append_right {xs ys : List GC} {p : Nat}
    (hb : isBoundary (xs ++ ys) p = true) (hge : docWidth xs ≤ p) :
    isBoundary ys (p - docWidth xs) = true := by
  induction xs generalizing p with
  | nil => simpa [docWidth_nil] using hb
  | cons gc rest ih =>
    simp only [List.cons_append, isBoundary, Bool.or_eq_true, beq_iff_eq, Bool.and_eq_true,
      decide_eq_true_eq] at hb
    rw [docWidth_cons] at hge
    rcases hb with rfl | ⟨h1, h2⟩
    · simpa using isBoundary_zero ys
    · have hh := ih h2 (by omega)
      have e : p - docWidth (gc :: rest) = p - gc.width - docWidth rest := by
        rw [docWidth_cons]; omega
      rw [e]; exact hh

theorem isBoundary_append_left {xs ys : List GC} {p : Nat}
    (hb : isBoundary (xs ++ ys) p = true) (hle : p ≤ docWidth xs) :
    isBoundary xs p = true := by
  induction xs generalizing p with
  | nil =>
    rw [docWidth_nil] at hle
    have : p = 0 := by omega
    subst this
    simp [isBoundary]
  | cons gc rest ih =>
    simp only [List.cons_append, isBoundary, Bool.or_eq_true, beq_iff_eq, Bool.and_eq_true,
      decide_eq_true_eq] at hb ⊢
    rcases hb with rfl | ⟨h1, h2⟩
    · left; rfl
    · right
      exact ⟨h1, ih h2 (by rw [docWidth_cons] at hle; omega)⟩

theorem lineStartAux_eq_take (L : List Line) (n : Nat) (hn : n ≤ L.length) :
    lineStartAux L n = ((L.take n).map lineWidth).sum := by
  induction L generalizing n with
  | nil =>
    have : n = 0 := by simpa using hn
    subst this
    simp [lineStartAux]
  | cons l rest ih =>
    cases n with
    | zero => simp [lineStartAux_zero]
    | succ m =>
      show lineWidth l + lineStartAux rest m = _
      rw [ih m (by simpa using hn)]
      simp

theorem posix_decomp (d : List GC) (n : Nat) (hn : n < numLines d) :
    d = (((posixLines d).take n).map lineGCs).flatten ++
        (lineGCs (lineAt d n) ++ (((posixLines d).drop (n + 1)).map lineGCs).flatten) := by
  have hsplit : posixLines d =
      (posixLines d).take n ++ lineAt d n :: (posixLines d).drop (n + 1) := by
    conv_lhs => rw [← List.take_append_drop n (posixLines d)]
    congr 1
    rw [show lineAt d n = (posixLines d)[n] from List.getD_eq_getElem _ _ hn]
    exact List.drop_eq_getElem_cons hn
  conv_lhs => rw [← posixLines_flatten d]
  conv_lhs => rw [hsplit]
  simp [List.flatten_append]

theorem width_take_lines (d : List GC) (n : Nat) (hn : n ≤ numLines d) :
    docWidth (((posixLines d).take n).map lineGCs).flatten = lineStartOf d n := by
  rw [docWidth_lines]
  unfold lineStartOf
  rw [lineStartAux_eq_take _ _ hn]

theorem posix_decomp_parts (d : List GC) (n : Nat) (hn : n < numLines d) :
    ∃ A B, d = A ++ ((lineAt d n).content ++ ((lineAt d n).term.toList ++ B)) ∧
      docWidth A = lineStartOf d n := by
  refine ⟨((( posixLines d).take n).map lineGCs).flatten,
    (((posixLines d).drop (n + 1)).map lineGCs).flatten, ?_, width_take_lines d n hn.le⟩
  refine (posix_decomp d n hn).trans ?_
  simp [lineGCs, List.append_assoc]

theorem isBoundary_lineContent (d : List GC) (n j : Nat) (hn : n < numLines d) :
    isBoundary d (lineStartOf d n + docWidth ((lineAt d n).content.take j)) = true := by
  obtain ⟨A, B, hdec, hwA⟩ := posix_decomp_parts d n hn
  obtain ⟨cnt, hcEq⟩ : ∃ cnt, (lineAt d n).content = cnt := ⟨_, rfl⟩
  obtain ⟨tl, htlEq⟩ : ∃ tl, (lineAt d n).term.toList = tl := ⟨_, rfl⟩
  rw [hcEq, htlEq] at hdec
  rw [hcEq]
  have hsplit2 : d = (A ++ cnt.take j) ++ (cnt.drop j ++ (tl ++ B)) := by
    rw [hdec]
    simp only [List.append_assoc]
    congr 1
    conv_rhs => rw [← List.append_assoc, List.take_append_drop]
  have hb := isBoundary_prefixWidth (A ++ cnt.take j) (cnt.drop j ++ (tl ++ B))
  rw [← hsplit2] at hb
  rwa [docWidth_append, hwA] at hb

theorem clusterAt_lineContent (d : List GC) (hv : ValidDoc d) (n j : Nat) (hn : n < numLines d)
    (hj : j < (lineAt d n).content.length) :
    clusterAt d (lineStartOf d n + docWidth ((lineAt d n).content.take j)) =
      some ((lineAt d n).content.getD j default) := by
  obtain ⟨A, B, hdec, hwA⟩ := posix_decomp_parts d n hn
  obtain ⟨cnt, hcEq⟩ : ∃ cnt, (lineAt d n).content = cnt := ⟨_, rfl⟩
  obtain ⟨tl, htlEq⟩ : ∃ tl, (lineAt d n).term.toList = tl := ⟨_, rfl⟩
  rw [hcEq, htlEq] at hdec
  rw [hcEq] at hj ⊢
  have hgd : cnt.getD j default :: cnt.drop (j + 1) = cnt.drop j := by
    rw [List.getD_eq_getElem _ _ hj]
    exact (List.drop_eq_getElem_cons hj).symm
  have hcsplit : cnt = cnt.take j ++ cnt.getD j default :: cnt.drop (j + 1) := by
    rw [hgd, List.take_append_drop]
  have hsplit2 : d = (A ++ cnt.take j) ++
      (cnt.getD j default :: (cnt.drop (j + 1) ++ (tl ++ B))) := by
    rw [hdec]
    conv_lhs => rw [hcsplit]
    simp [List.append_assoc]
  have hvpre : ValidDoc (A ++ cnt.take j) := by
    rw [hsplit2] at hv
    exact validDoc_append_left hv
  have hca := @clusterAt_prefixWidth
    (A ++ cnt.take j) (cnt.getD j default :: (cnt.drop (j + 1) ++ (tl ++ B))) hvpre
  rw [← hsplit2] at hca
  rw [docWidth_append, hwA] at hca
  rw [hca]
  rfl

theorem clusterAt_docWidth (d : List GC) (hv : ValidDoc d) :
    clusterAt d (docWidth d) = none := by
  have hh := @clusterAt_prefixWidth d [] hv
  simpa using hh

theorem clusterAt_contentEnd_term (d : List GC) (hv : ValidDoc d) (n : Nat)
    (hn : n < numLines d) {t : GC} (ht : (lineAt d n).term = some t) :
    clusterAt d (contentEndOf d n) = some t := by
  obtain ⟨A, B, hdec, hwA⟩ := posix_decomp_parts d n hn
  obtain ⟨c, hcEq⟩ : ∃ c, (lineAt d n).content = c := ⟨_, rfl⟩
  rw [hcEq, ht] at hdec
  have hce : contentEndOf d n = docWidth A + docWidth c := by
    unfold contentEndOf
    rw [hcEq, hwA]
  have hsplit2 : d = (A ++ c) ++ (t :: B) := by
    rw [hdec]
    simp [List.append_assoc]
  have hvpre : ValidDoc (A ++ c) := by
    rw [hsplit2] at hv
    exact validDoc_append_left hv
  have hca := @clusterAt_prefixWidth (A ++ c) (t :: B) hvpre
  rw [← hsplit2] at hca
  rw [docWidth_append] at hca
  rw [hce, hca]
  rfl

theorem contentEnd_eq_docWidth_of_last (d : List GC) (n : Nat)
    (hn : n + 1 = numLines d) (ht : (lineAt d n).term = none) :
    contentEndOf d n = docWidth d := by
  have h1 : docWidth d = lineStartAux (posixLines d) (numLines d) := docWidth_eq_lineStartAux d
  have h2 : lineStartAux (posixLines d) (n + 1) =
      lineStartAux (posixLines d) n + lineWidth (lineAt d n) :=
    lineStartAux_succ _ n (by unfold numLines at hn; omega)
  have h3 : lineWidth (lineAt d n) = docWidth (lineAt d n).content := by
    rw [lineWidth_eq, ht]
    simp [docWidth_nil]
  unfold contentEndOf lineStartOf
  rw [← hn] at h1
  rw [h1, h2, h3]

theorem clusterAt_contentEnd_none (d : List GC) (hv : ValidDoc d) (n : Nat)
    (hn : n + 1 = numLines d) (ht : (lineAt d n).term = none) :
    clusterAt d (contentEndOf d n) = none := by
  rw [contentEnd_eq_docWidth_of_last d n hn ht]
  exact clusterAt_docWidth d hv

/-! Doc-level span facts. -/

theorem lineNumForPos_lt (d : List GC) (p : Nat) : lineNumForPos d p < numLines d := by
  have h1 := lineNumAux_le (posixLines d) p
  have h2 : 0 < (posixLines d).length := List.length_pos.mpr (posixLines_ne_nil d)
  unfold lineNumForPos numLines
  omega

theorem lineStartOf_lineNum_le (d : List GC) (p : Nat) :
    lineStartOf d (lineNumForPos d p) ≤ p :=
  lineStartAux_lineNum_le _ p

theorem lt_lineStartOf_succ (d : List GC) (p : Nat)
    (h : lineNumForPos d p + 1 < numLines d) :
    p < lineStartOf d (lineNumForPos d p + 1) :=
  lt_lineStartAux_succ _ p h

theorem lineNumForPos_eq_of_span (d : List GC) (p n : Nat) (hn : n < numLines d)
    (h1 : lineStartOf d n ≤ p)
    (h2 : p < lineStartOf d (n + 1) ∨ n + 1 = numLines d) : lineNumForPos d p = n :=
  lineNumAux_eq_of_span _ p n hn h1 h2

theorem lineStartOf_succ (d : List GC) (n : Nat) (hn : n < numLines d) :
    lineStartOf d (n + 1) = lineStartOf d n + lineWidth (lineAt d n) :=
  lineStartAux_succ _ n hn

theorem lineStartOf_mono (d : List GC) {n m : Nat} (h : n ≤ m) :
    lineStartOf d n ≤ lineStartOf d m :=
  lineStartAux_mono _ h

theorem lineAt_mem (d : List GC) (n : Nat) (hn : n < numLines d) :
    lineAt d n ∈ posixLines d := by
  unfold lineAt
  rw [List.getD_eq_getElem _ _ hn]
  exact List.getElem_mem _

theorem contentEnd_lt_lineStartOf_succ (d : List GC) (hv : ValidDoc d) (n : Nat)
    (hn : n < numLines d) {t : GC} (ht : (lineAt d n).term = some t) :
    contentEndOf d n < lineStartOf d (n + 1) := by
  have h1 := lineStartOf_succ d n hn
  have h2 := lineWidth_eq (lineAt d n)
  rw [ht] at h2
  have h3 : 1 ≤ t.width := by
    refine posix_valid hv (lineAt_mem d n hn) t ?_
    simp [lineGCs, ht]
  unfold contentEndOf
  simp only [Option.toList_some] at h2
  rw [docWidth_cons, docWidth_nil] at h2
  omega

theorem posix_decomp_parts_last (d : List GC) (n : Nat) (hn : n + 1 = numLines d) :
    ∃ A, d = A ++ ((lineAt d n).content ++ (lineAt d n).term.toList) ∧
      docWidth A = lineStartOf d n := by
  refine ⟨(((posixLines d).take n).map lineGCs).flatten, ?_,
    width_take_lines d n (by omega)⟩
  refine (posix_decomp d n (by omega)).trans ?_
  have hdrop : (posixLines d).drop (n + 1) = [] :=
    List.drop_eq_nil_of_le (by unfold numLines at hn; omega)
  rw [hdrop]
  simp [lineGCs, List.append_assoc]

theorem suffixFrom_split {d : List GC} {p : Nat} (hv : ValidDoc d)
    (hb : isBoundary d p = true) :
    ∃ zs, d = zs ++ suffixFrom d p ∧ docWidth zs = p := by
  obtain ⟨i, hi, rfl⟩ := isBoundary_iff.mp hb
  refine ⟨d.take i, ?_, rfl⟩
  have hh := @suffixFrom_append (d.take i) (d.drop i) (validDoc_take hv i)
  rw [List.take_append_drop] at hh
  rw [hh, List.take_append_drop]

theorem boundary_classify (d : List GC) (hv : ValidDoc d) {p n : Nat}
    (hb : isBoundary d p = true) (hn : n < numLines d)
    (h1 : lineStartOf d n ≤ p) (h2 : p < lineStartOf d (n + 1)) :
    ∃ j, j ≤ (lineAt d n).content.length ∧
      p = lineStartOf d n + docWidth ((lineAt d n).content.take j) := by
  obtain ⟨A, B, hdec, hwA⟩ := posix_decomp_parts d n hn
  obtain ⟨cnt, hcEq⟩ : ∃ cnt, (lineAt d n).content = cnt := ⟨_, rfl⟩
  obtain ⟨tl, htlEq⟩ : ∃ tl, (lineAt d n).term.toList = tl := ⟨_, rfl⟩
  rw [hcEq, htlEq] at hdec
  rw [hcEq]
  have hw2 : lineStartOf d (n + 1) = lineStartOf d n + (docWidth cnt + docWidth tl) := by
    rw [lineStartOf_succ d n hn, lineWidth_eq, hcEq, htlEq]
  rw [hdec] at hb
  have hb2 : isBoundary (cnt ++ (tl ++ B)) (p - docWidth A) :=
    isBoundary_append_right hb (by omega)
  by_cases hcase : p - docWidth A ≤ docWidth cnt
  · have hb3 : isBoundary cnt (p - docWidth A) = true :=
      isBoundary_append_left hb2 hcase
    obtain ⟨j, hj, hw⟩ := isBoundary_iff.mp hb3
    exact ⟨j, hj, by omega⟩
  · exfalso
    have hb3 : isBoundary (tl ++ B) (p - docWidth A - docWidth cnt) := by
      have hh := @isBoundary_append_right cnt (tl ++ B) (p - docWidth A) hb2 (by omega)
      exact hh
    have hb4 : isBoundary tl (p - docWidth A - docWidth cnt) = true := by
      refine isBoundary_append_left hb3 ?_
      omega
    obtain ⟨j, hj, hw⟩ := isBoundary_iff.mp hb4
    -- tl is empty or a single terminator cluster: its only boundaries are 0 and its width
    have htlcases : tl = [] ∨ ∃ t : GC, tl = [t] := by
      rcases hterm : (lineAt d n).term with _ | t
      · left; rw [← htlEq, hterm]; rfl
      · right; exact ⟨t, by rw [← htlEq, hterm]; rfl⟩
    rcases htlcases with rfl | ⟨t, rfl⟩
    · simp [docWidth_nil] at hw
      omega
    · have hj2 : j = 0 ∨ j = 1 := by simp at hj; omega
      rcases hj2 with rfl | rfl
      · simp [docWidth_nil] at hw
        omega
      · have : docWidth (List.take 1 [t]) = docWidth [t] := rfl
        rw [this] at hw
        omega

theorem boundary_classify_last (d : List GC) (hv : ValidDoc d) {p n : Nat}
    (hb : isBoundary d p = true) (hn : n + 1 = numLines d)
    (h1 : lineStartOf d n ≤ p) :
    (∃ j, j ≤ (lineAt d n).content.length ∧
      p = lineStartOf d n + docWidth ((lineAt d n).content.take j)) ∨
    p = docWidth d := by
  obtain ⟨A, hdec, hwA⟩ := posix_decomp_parts_last d n hn
  obtain ⟨cnt, hcEq⟩ : ∃ cnt, (lineAt d n).content = cnt := ⟨_, rfl⟩
  obtain ⟨tl, htlEq⟩ : ∃ tl, (lineAt d n).term.toList = tl := ⟨_, rfl⟩
  rw [hcEq, htlEq] at hdec
  rw [hcEq]
  have hple : p ≤ docWidth d := isBoundary_le hb
  have hwd : docWidth d = docWidth A + (docWidth cnt + docWidth tl) := by
    rw [hdec, docWidth_append, docWidth_append]
  rw [hdec] at hb
  have hb2 : isBoundary (cnt ++ tl) (p - docWidth A) :=
    isBoundary_append_right hb (by omega)
  by_cases hcase : p - docWidth A ≤ docWidth cnt
  · have hb3 : isBoundary cnt (p - docWidth A) = true :=
      isBoundary_append_left hb2 hcase
    obtain ⟨j, hj, hw⟩ := isBoundary_iff.mp hb3
    exact Or.inl ⟨j, hj, by omega⟩
  · have hb3 : isBoundary tl (p - docWidth A - docWidth cnt) := by
      have hh := @isBoundary_append_right cnt tl (p - docWidth A) hb2 (by omega)
      exact hh
    have htlcases : tl = [] ∨ ∃ t : GC, tl = [t] := by
      rcases hterm : (lineAt d n).term with _ | t
      · left; rw [← htlEq, hterm]; rfl
      · right; exact ⟨t, by rw [← htlEq, hterm]; rfl⟩
    obtain ⟨j, hj, hw⟩ := isBoundary_iff.mp hb3
    rcases htlcases with rfl | ⟨t, rfl⟩
    · simp [docWidth_nil] at hw
      omega
    · have hj2 : j = 0 ∨ j = 1 := by simp at hj; omega
      rcases hj2 with rfl | rfl
      · simp [docWidth_nil] at hw
        omega
      · right
        have he : docWidth (List.take 1 [t]) = docWidth [t] := rfl
        rw [he] at hw
        omega

/-! Helper facts about the shared locator epilogue. -/

theorem moveTo_position (c : CursorState) (p : Nat) : (moveTo c p).position = p := by
  unfold moveTo
  split
  · rename_i h; rw [h]
  · rfl

theorem moveTo_self (c : CursorState) : moveTo c c.position = c := by
  unfold moveTo
  rw [if_pos rfl]

theorem moveTo_logicalOffset (c : CursorState) (p : Nat) :
    (moveTo c p).logicalOffset = if p = c.position then c.logicalOffset else 0 := by
  unfold moveTo
  split <;> rfl

/-! Concrete grapheme clusters and documents used in scenarios. -/

/-- One-byte ordinary cluster (an ASCII letter). -/
def gcA : GC := ⟨1, GKind.other⟩

/-- Two-byte ordinary cluster (a letter with a combining accent). -/
def gcW : GC := ⟨2, GKind.other⟩

/-- One-byte line-feed terminator cluster. -/
def gcNl : GC := ⟨1, GKind.newline⟩

/-- One-byte tab cluster. -/
def gcTab : GC := ⟨1, GKind.tab⟩

/-- One-byte space cluster. -/
def gcSp : GC := ⟨1, GKind.space⟩

/-- Document "abc\nefghijkl" of the vertical-motion scenario. -/
def docAbcEfghijkl : List GC :=
  [gcA, gcA, gcA, gcNl, gcA, gcA, gcA, gcA, gcA, gcA, gcA, gcA]

/-- Document "abcd\nefgh\nijkl\n" of the line-number scenario. -/
def docPosix : List GC :=
  [gcA, gcA, gcA, gcA, gcNl, gcA, gcA, gcA, gcA, gcNl, gcA, gcA, gcA, gcA, gcNl]

/-- Document "abcd\nefgh". -/
def docAbcdEfgh : List GC :=
  [gcA, gcA, gcA, gcA, gcNl, gcA, gcA, gcA, gcA]

/-- Document "abcd\n\nefgh" with an empty middle line. -/
def docEmptyMid : List GC :=
  [gcA, gcA, gcA, gcA, gcNl, gcNl, gcA, gcA, gcA, gcA]

/-- Document "ab\ncd" of the round-trip counterexample. -/
def docAbCd : List GC := [gcA, gcA, gcNl, gcA, gcA]

/-! Locators on the empty document. -/

theorem posixLines_nil : posixLines [] = [⟨[], none⟩] := rfl

theorem lineStartAux_emptyLine (n : Nat) :
    lineStartAux [(⟨[], none⟩ : Line)] n = 0 := by
  cases n with
  | zero => rfl
  | succ m =>
    show lineWidth ⟨[], none⟩ + lineStartAux [] m = 0
    simp [lineWidth, lineGCs, docWidth, lineStartAux]

theorem lineStartOf_nil (n : Nat) : lineStartOf [] n = 0 := by
  unfold lineStartOf
  rw [posixLines_nil]
  exact lineStartAux_emptyLine n

theorem relativeTargetLine_zero (dir : Direction) (count : Nat) :
    relativeTargetLine dir count 0 0 = 0 := by
  cases dir <;> simp [relativeTargetLine]

theorem locateRelativeLine_clamped (dir : Direction) (count : Nat) (d : List GC)
    (tabSize : Nat) (c : CursorState)
    (h : relativeTargetLine dir count (lineNumForPos d c.position) (numLines d - 1) =
      lineNumForPos d c.position) :
    locateRelativeLine dir count d tabSize c = c := by
  show (if relativeTargetLine dir count (lineNumForPos d c.position) (numLines d - 1) =
      lineNumForPos d c.position then c else _) = c
  rw [if_pos h]

/-- C9: on the empty document, every one of the eight locators, with any
parameters and any tab size, maps a structurally valid cursor (whose
position is necessarily 0, the document's only byte offset) to position 0
with the logical offset passed through unchanged. -/
theorem locate_empty_doc (tabSize pos lo : Nat) (l : Locator)
    (hpos : pos ≤ docWidth []) :
    locate l ⟨[], tabSize, ⟨pos, lo⟩⟩ = ⟨0, lo⟩ := by
  have hp0 : pos = 0 := by rw [docWidth_nil] at hpos; omega
  subst hp0
  cases l with
  | charInLine dir count inc =>
    cases dir <;> cases count <;> rfl
  | ontoLine => rfl
  | relativeLineStart dir count =>
    cases dir <;>
    · simp only [locate, lineStartOf_nil]
      rfl
  | relativeLine dir count =>
    show locateRelativeLine dir count [] tabSize ⟨0, lo⟩ = ⟨0, lo⟩
    exact locateRelativeLine_clamped dir count [] tabSize ⟨0, lo⟩
      (by cases dir <;>
        simp [relativeTargetLine, show lineNumForPos ([] : List GC) 0 = 0 from rfl,
          show numLines ([] : List GC) = 1 from rfl])
  | lineBoundary dir inc =>
    cases dir <;> cases inc <;> rfl
  | nonWhitespaceOrNewline => rfl
  | lineNum n =>
    simp only [locate, lineStartOf_nil]
    rfl
  | lastLine => rfl

/-- Witness for C9: a concrete locator call on the empty document. -/
theorem locate_empty_doc_witness :
    3 ≤ docWidth [] + 3 ∧
      locate (Locator.relativeLine Direction.backward 2) ⟨[], 4, ⟨0, 7⟩⟩ = ⟨0, 7⟩ :=
  ⟨by omega, locate_empty_doc 4 0 7 (Locator.relativeLine Direction.backward 2) (by decide)⟩

/-- C5: LineNumLocator jumps to the first content position of the
0-indexed target line under the POSIX trailing-terminator rule: on
"abcd\nefgh\nijkl\n" from position 1, line number 2 lands at position 10,
and every line number at or beyond the last line clamps to the same
last-line start 10 (never 15). -/
theorem lineNum_locator_posix (n : Nat) (hn : 2 ≤ n) :
    locate (Locator.lineNum 2) ⟨docPosix, 4, ⟨1, 0⟩⟩ = ⟨10, 0⟩ ∧
    (locate (Locator.lineNum n) ⟨docPosix, 4, ⟨1, 0⟩⟩).position = 10 := by
  constructor
  · decide
  · simp only [locate, moveTo_position]
    have h3 : numLines docPosix = 3 := rfl
    have hmin : min n (numLines docPosix - 1) = 2 := by omega
    rw [hmin]
    rfl

/-- Witness for C5 at the concrete line number 5. -/
theorem lineNum_locator_posix_witness :
    locate (Locator.lineNum 2) ⟨docPosix, 4, ⟨1, 0⟩⟩ = ⟨10, 0⟩ ∧
    (locate (Locator.lineNum 5) ⟨docPosix, 4, ⟨1, 0⟩⟩).position = 10 :=
  lineNum_locator_posix 5 (by omega)

/-- C10: a cursor sitting on the terminator of an empty line (a line
whose content is empty, so its terminator occupies the line's start
position) is left unchanged by OntoLineLocator, logical offset included. -/
theorem ontoLine_empty_line (d : List GC) (tabSize lo n : Nat) {t : GC}
    (hv : ValidDoc d) (hn : n < numLines d)
    (hc : (lineAt d n).content = []) (ht : (lineAt d n).term = some t) :
    locate Locator.ontoLine ⟨d, tabSize, ⟨lineStartOf d n, lo⟩⟩ =
      ⟨lineStartOf d n, lo⟩ := by
  have hwt : 1 ≤ t.width := posix_valid hv (lineAt_mem d n hn) t (by simp [lineGCs, ht])
  have hwidth : lineWidth (lineAt d n) = t.width := by
    rw [lineWidth_eq, hc, ht]
    simp [docWidth_nil, docWidth_cons]
  have hm : lineNumForPos d (lineStartOf d n) = n := by
    refine lineNumForPos_eq_of_span d _ n hn (Nat.le_refl _) ?_
    by_cases hl : n + 1 = numLines d
    · right; exact hl
    · left
      rw [lineStartOf_succ d n hn, hwidth]
      omega
  have hce : contentEndOf d n = lineStartOf d n := by
    unfold contentEndOf
    rw [hc, docWidth_nil]
    omega
  have hclosest : closestCharOnLine d (lineStartOf d n) = lineStartOf d n := by
    unfold closestCharOnLine
    rw [hm]
    show (if lineStartOf d n < contentEndOf d n then lineStartOf d n
      else
        match (lineAt d n).content.getLast? with
        | none => lineStartOf d n
        | some gc => contentEndOf d n - gc.width) = lineStartOf d n
    rw [hce, if_neg (by omega), hc]
    rfl
  simp only [locate, hclosest]
  exact moveTo_self _

/-- Witness for C10: OntoLineLocator keeps the cursor on the empty middle
line of "abcd\n\nefgh". -/
theorem ontoLine_empty_line_witness :
    locate Locator.ontoLine ⟨docEmptyMid, 4, ⟨lineStartOf docEmptyMid 1, 3⟩⟩ =
      ⟨lineStartOf docEmptyMid 1, 3⟩ :=
  ontoLine_empty_line docEmptyMid 4 3 1 (t := gcNl) (by decide) (by decide) (by decide)
    (by decide)

theorem moveTo_moveTo (c : CursorState) (p : Nat) : moveTo (moveTo c p) p = moveTo c p := by
  by_cases h : p = c.position
  · unfold moveTo
    rw [if_pos h, if_pos h]
  · unfold moveTo
    rw [if_neg h, if_pos rfl]

/-- The corrective scan is fixed on line starts of empty lines that carry
a terminator. -/
theorem closest_lineStart_empty (d : List GC) (n : Nat) {t : GC}
    (hv : ValidDoc d) (hn : n < numLines d)
    (hc : (lineAt d n).content = []) (ht : (lineAt d n).term = some t) :
    closestCharOnLine d (lineStartOf d n) = lineStartOf d n := by
  have hwt : 1 ≤ t.width := posix_valid hv (lineAt_mem d n hn) t (by simp [lineGCs, ht])
  have hwidth : lineWidth (lineAt d n) = t.width := by
    rw [lineWidth_eq, hc, ht]
    simp [docWidth_nil, docWidth_cons]
  have hm : lineNumForPos d (lineStartOf d n) = n := by
    refine lineNumForPos_eq_of_span d _ n hn (Nat.le_refl _) ?_
    by_cases hl : n + 1 = numLines d
    · right; exact hl
    · left
      rw [lineStartOf_succ d n hn, hwidth]
      omega
  have hce : contentEndOf d n = lineStartOf d n := by
    unfold contentEndOf
    rw [hc, docWidth_nil]
    omega
  unfold closestCharOnLine
  rw [hm]
  show (if lineStartOf d n < contentEndOf d n then lineStartOf d n
    else
      match (lineAt d n).content.getLast? with
      | none => lineStartOf d n
      | some gc => contentEndOf d n - gc.width) = lineStartOf d n
  rw [hce, if_neg (by omega), hc]
  rfl

/-- The corrective scan is fixed on the start of a line's last content
cluster. -/
theorem closest_lastCluster (d : List GC) (n : Nat) {gc : GC}
    (hv : ValidDoc d) (hn : n < numLines d)
    (hgl : (lineAt d n).content.getLast? = some gc) :
    closestCharOnLine d (contentEndOf d n - gc.width) = contentEndOf d n - gc.width := by
  have hdecomp : (lineAt d n).content.dropLast ++ [gc] = (lineAt d n).content :=
    List.dropLast_append_getLast? gc (by rw [hgl]; rfl)
  have hwc : docWidth (lineAt d n).content =
      docWidth (lineAt d n).content.dropLast + gc.width := by
    conv_lhs => rw [← hdecomp]
    rw [docWidth_append, docWidth_cons, docWidth_nil]
    omega
  have hmem : gc ∈ (lineAt d n).content := by
    rw [← hdecomp]; simp
  have hwgc : 1 ≤ gc.width :=
    posix_valid hv (lineAt_mem d n hn) gc (by simp [lineGCs, hmem])
  have hq1 : lineStartOf d n ≤ contentEndOf d n - gc.width := by
    unfold contentEndOf
    omega
  have hq2 : contentEndOf d n - gc.width < contentEndOf d n := by
    unfold contentEndOf
    omega
  have hcele : contentEndOf d n ≤ lineStartOf d n + lineWidth (lineAt d n) := by
    unfold contentEndOf
    rw [lineWidth_eq]
    omega
  have hm : lineNumForPos d (contentEndOf d n - gc.width) = n := by
    refine lineNumForPos_eq_of_span d _ n hn hq1 ?_
    by_cases hl : n + 1 = numLines d
    · right; exact hl
    · left
      rw [lineStartOf_succ d n hn]
      omega
  unfold closestCharOnLine
  rw [hm, if_pos hq2]

/-- C7: OntoLineLocator is idempotent on every valid buffer state: a
second application returns the first application's cursor unchanged. -/
theorem ontoLine_idempotent (d : List GC) (tabSize : Nat) (c : CursorState)
    (hv : ValidDoc d) :
    locate Locator.ontoLine ⟨d, tabSize, locate Locator.ontoLine ⟨d, tabSize, c⟩⟩ =
      locate Locator.ontoLine ⟨d, tabSize, c⟩ := by
  have key : closestCharOnLine d (closestCharOnLine d c.position) =
      closestCharOnLine d c.position := by
    by_cases hlt : c.position < contentEndOf d (lineNumForPos d c.position)
    · have hp : closestCharOnLine d c.position = c.position := by
        unfold closestCharOnLine
        rw [if_pos hlt]
      rw [hp]
      exact hp
    · have hq : closestCharOnLine d c.position =
          (match (lineAt d (lineNumForPos d c.position)).content.getLast? with
           | none => lineStartOf d (lineNumForPos d c.position)
           | some gc => contentEndOf d (lineNumForPos d c.position) - gc.width) := by
        unfold closestCharOnLine
        rw [if_neg hlt]
      have hnlt : lineNumForPos d c.position < numLines d := lineNumForPos_lt d c.position
      rcases hgl : (lineAt d (lineNumForPos d c.position)).content.getLast? with _ | gc
      · have hc0 : (lineAt d (lineNumForPos d c.position)).content = [] :=
          List.getLast?_eq_none_iff.mp hgl
        have hq2 : closestCharOnLine d c.position =
            lineStartOf d (lineNumForPos d c.position) := by
          rw [hq, hgl]
        rw [hq2]
        rcases hterm : (lineAt d (lineNumForPos d c.position)).term with _ | t
        · have hd : d = [] :=
            posix_empty_line_nil (lineAt_mem d _ hnlt) hc0 hterm
          subst hd
          have hn0 : lineNumForPos ([] : List GC) c.position = 0 := rfl
          rw [hn0]
          rfl
        · exact closest_lineStart_empty d _ hv hnlt hc0 hterm
      · have hq2 : closestCharOnLine d c.position =
            contentEndOf d (lineNumForPos d c.position) - gc.width := by
          rw [hq, hgl]
        rw [hq2]
        exact closest_lastCluster d _ hv hnlt hgl
  show moveTo (moveTo c (closestCharOnLine d c.position))
      (closestCharOnLine d (moveTo c (closestCharOnLine d c.position)).position) =
    moveTo c (closestCharOnLine d c.position)
  rw [moveTo_position, key]
  exact moveTo_moveTo c _

/-- Witness for C7 on "abcd\nefgh" with the cursor past the first line's
content. -/
theorem ontoLine_idempotent_witness :
    locate Locator.ontoLine
        ⟨docAbcdEfgh, 4, locate Locator.ontoLine ⟨docAbcdEfgh, 4, ⟨4, 2⟩⟩⟩ =
      locate Locator.ontoLine ⟨docAbcdEfgh, 4, ⟨4, 2⟩⟩ :=
  ontoLine_idempotent docAbcdEfgh 4 ⟨4, 2⟩ (by decide)

/-! Arithmetic of the vertical locator's column walk. -/

theorem advanceToCol_nil (t : Nat) (s col tc : Nat) :
    advanceToCol t [] s col tc = (s, tc - col) := rfl

theorem lineVisAux_append (t : Nat) (xs ys : List GC) (col : Nat) :
    lineVisAux t (xs ++ ys) col = lineVisAux t ys (lineVisAux t xs col) := by
  induction xs generalizing col with
  | nil => rfl
  | cons gc rest ih =>
    simp only [List.cons_append, lineVisAux]
    exact ih _

theorem lineVisAux_ge (t : Nat) (content : List GC) (col : Nat) :
    col ≤ lineVisAux t content col := by
  induction content generalizing col with
  | nil => exact Nat.le_refl _
  | cons gc rest ih =>
    simp only [lineVisAux]
    exact Nat.le_trans (Nat.le_add_right _ _) (ih _)

theorem lineVisAux_take_succ (t : Nat) (content : List GC) (j col : Nat)
    (hj : j < content.length) :
    lineVisAux t (content.take (j + 1)) col =
      lineVisAux t (content.take j) col +
        gcVisualWidth t (lineVisAux t (content.take j) col) (content.getD j default) := by
  have h2 : content.take (j + 1) = content.take j ++ [content.getD j default] := by
    rw [List.take_succ, List.getD_eq_getElem _ _ hj, List.getElem?_eq_getElem hj]
    rfl
  rw [h2, lineVisAux_append]
  rfl

theorem advanceToCol_hit (t : Nat) (content : List GC) (s col tc : Nat) (j : Nat)
    (hj : j < content.length)
    (hlo : lineVisAux t (content.take j) col ≤ tc)
    (hhi : tc < lineVisAux t (content.take j) col +
      gcVisualWidth t (lineVisAux t (content.take j) col) (content.getD j default)) :
    advanceToCol t content s col tc =
      (s + docWidth (content.take j), tc - lineVisAux t (content.take j) col) := by
  induction content generalizing s col j with
  | nil => simp at hj
  | cons gc rest ih =>
    cases j with
    | zero =>
      simp only [List.take_zero, lineVisAux, List.getD_cons_zero] at hlo hhi ⊢
      unfold advanceToCol
      rw [if_pos hhi]
      simp [docWidth_nil]
    | succ m =>
      have he : (gc :: rest).take (m + 1) = gc :: rest.take m := rfl
      have hgd : (gc :: rest).getD (m + 1) default = rest.getD m default := rfl
      rw [he] at hlo hhi
      rw [hgd] at hhi
      rw [he]
      have hvis : lineVisAux t (gc :: rest.take m) col =
          lineVisAux t (rest.take m) (col + gcVisualWidth t col gc) := rfl
      rw [hvis] at hlo hhi ⊢
      have hge : col + gcVisualWidth t col gc ≤ tc :=
        Nat.le_trans (lineVisAux_ge t (rest.take m) _) hlo
      have hm : m < rest.length := by simpa using hj
      unfold advanceToCol
      rw [if_neg (by omega)]
      rcases rest with _ | ⟨gc2, rest2⟩
      · simp at hm
      · show advanceToCol t (gc2 :: rest2) (s + gc.width) (col + gcVisualWidth t col gc) tc = _
        rw [ih (s + gc.width) (col + gcVisualWidth t col gc) m hm hlo hhi]
        rw [docWidth_cons]
        simp [Nat.add_assoc]

theorem advanceToCol_exhaust (t : Nat) (content : List GC) (s col tc : Nat)
    (hne : content ≠ [])
    (htc : lineVisAux t content col ≤ tc) :
    advanceToCol t content s col tc =
      (s + docWidth (content.take (content.length - 1)),
       tc - lineVisAux t (content.take (content.length - 1)) col) := by
  induction content generalizing s col with
  | nil => exact absurd rfl hne
  | cons gc rest ih =>
    rcases rest with _ | ⟨gc2, rest2⟩
    · have hv : lineVisAux t [gc] col = col + gcVisualWidth t col gc := rfl
      rw [hv] at htc
      unfold advanceToCol
      rw [if_neg (by omega)]
      simp [docWidth_nil, lineVisAux]
    · have hv : lineVisAux t (gc :: gc2 :: rest2) col =
          lineVisAux t (gc2 :: rest2) (col + gcVisualWidth t col gc) := rfl
      rw [hv] at htc
      have hge : col + gcVisualWidth t col gc ≤ tc :=
        Nat.le_trans (lineVisAux_ge t _ _) htc
      unfold advanceToCol
      rw [if_neg (by omega)]
      show advanceToCol t (gc2 :: rest2) (s + gc.width) (col + gcVisualWidth t col gc) tc = _
      rw [ih (s + gc.width) (col + gcVisualWidth t col gc) (by simp) htc]
      have hlen : (gc :: gc2 :: rest2).take ((gc :: gc2 :: rest2).length - 1) =
          gc :: (gc2 :: rest2).take ((gc2 :: rest2).length - 1) := by
        simp [List.length_cons]
      rw [hlen, docWidth_cons]
      have hvis2 : lineVisAux t (gc :: (gc2 :: rest2).take ((gc2 :: rest2).length - 1)) col =
          lineVisAux t ((gc2 :: rest2).take ((gc2 :: rest2).length - 1))
            (col + gcVisualWidth t col gc) := rfl
      rw [hvis2]
      simp [Nat.add_assoc]

theorem advanceToCol_pos_shape (t : Nat) (content : List GC) (s col tc : Nat) :
    ∃ j, (j < content.length ∨ (content = [] ∧ j = 0)) ∧
      (advanceToCol t content s col tc).1 = s + docWidth (content.take j) := by
  induction content generalizing s col with
  | nil =>
    refine ⟨0, Or.inr ⟨rfl, rfl⟩, ?_⟩
    simp [advanceToCol_nil, docWidth_nil]
  | cons gc rest ih =>
    by_cases hstop : tc < col + gcVisualWidth t col gc
    · refine ⟨0, Or.inl (by simp), ?_⟩
      unfold advanceToCol
      rw [if_pos hstop]
      simp [docWidth_nil]
    · rcases rest with _ | ⟨gc2, rest2⟩
      · refine ⟨0, Or.inl (by simp), ?_⟩
        unfold advanceToCol
        rw [if_neg hstop]
        simp [docWidth_nil]
      · obtain ⟨j, hj, hpos⟩ := ih (s + gc.width) (col + gcVisualWidth t col gc)
        rcases hj with hj | ⟨hemp, _⟩
        · refine ⟨j + 1, Or.inl (by simpa using hj), ?_⟩
          unfold advanceToCol
          rw [if_neg hstop]
          show (advanceToCol t (gc2 :: rest2) (s + gc.width)
            (col + gcVisualWidth t col gc) tc).1 = _
          rw [hpos]
          rw [show (gc :: gc2 :: rest2).take (j + 1) = gc :: (gc2 :: rest2).take j from rfl]
          rw [docWidth_cons]
          omega
        · exact absurd hemp (by simp)

theorem colOfPosAux_take (t : Nat) (content : List GC) (s j col0 : Nat)
    (hvc : ValidDoc content) (hj : j ≤ content.length) :
    colOfPosAux t content s (s + docWidth (content.take j)) col0 =
      lineVisAux t (content.take j) col0 := by
  induction content generalizing s j col0 with
  | nil =>
    have hj0 : j = 0 := by simpa using hj
    subst hj0
    simp [colOfPosAux, lineVisAux, docWidth_nil]
  | cons gc rest ih =>
    cases j with
    | zero =>
      show colOfPosAux t (gc :: rest) s (s + docWidth []) col0 = _
      rw [docWidth_nil]
      unfold colOfPosAux
      rw [if_pos (by omega)]
      rfl
    | succ m =>
      have hw : 1 ≤ gc.width := hvc gc (by simp)
      have he : (gc :: rest).take (m + 1) = gc :: rest.take m := rfl
      rw [he, docWidth_cons]
      unfold colOfPosAux
      rw [if_neg (by omega)]
      have harg : s + (gc.width + docWidth (rest.take m)) =
          (s + gc.width) + docWidth (rest.take m) := by omega
      rw [harg]
      rw [ih (s + gc.width) m _ (fun g hg => hvc g (by simp [hg])) (by simpa using hj)]
      rfl

/-- Base equation of a non-clamped vertical move: the landing cursor is
the column walk of the target line. -/
theorem locateRelativeLine_walk (dir : Direction) (count : Nat) (d : List GC)
    (tabSize : Nat) (c : CursorState) (tgt tcol : Nat)
    (htgt : relativeTargetLine dir count (lineNumForPos d c.position) (numLines d - 1) = tgt)
    (hne : tgt ≠ lineNumForPos d c.position)
    (htcol : colOfPosAux tabSize (lineAt d (lineNumForPos d c.position)).content
        (lineStartOf d (lineNumForPos d c.position)) c.position 0 +
        c.logicalOffset = tcol) :
    locateRelativeLine dir count d tabSize c =
      ⟨(advanceToCol tabSize (lineAt d tgt).content (lineStartOf d tgt) 0 tcol).1,
       (advanceToCol tabSize (lineAt d tgt).content (lineStartOf d tgt) 0 tcol).2⟩ := by
  show (if relativeTargetLine dir count (lineNumForPos d c.position) (numLines d - 1) =
      lineNumForPos d c.position then c
    else
      ⟨(advanceToCol tabSize
          (lineAt d (relativeTargetLine dir count (lineNumForPos d c.position)
            (numLines d - 1))).content
          (lineStartOf d (relativeTargetLine dir count (lineNumForPos d c.position)
            (numLines d - 1))) 0
          (colOfPosAux tabSize (lineAt d (lineNumForPos d c.position)).content
            (lineStartOf d (lineNumForPos d c.position)) c.position 0 +
            c.logicalOffset)).1,
       (advanceToCol tabSize
          (lineAt d (relativeTargetLine dir count (lineNumForPos d c.position)
            (numLines d - 1))).content
          (lineStartOf d (relativeTargetLine dir count (lineNumForPos d c.position)
            (numLines d - 1))) 0
          (colOfPosAux tabSize (lineAt d (lineNumForPos d c.position)).content
            (lineStartOf d (lineNumForPos d c.position)) c.position 0 +
            c.logicalOffset)).2⟩) = _
  rw [htgt, htcol, if_neg hne]

/-- C1: after a non-clamped vertical move determines its target line, the
landing cursor is resolved from the saved visual column exactly as the
design doc describes: landing on the content cluster whose visual span
contains the target column (logical offset 0 on an exact hit, the
remaining sub-tab columns when the target column falls inside a tab's
span), or on the line's last content cluster with the column shortfall as
the logical offset when the content is exhausted (on the line start, with
the whole column, for an empty line); in particular, on "abc\nefghijkl"
with the cursor at position 9, RelativeLineLocator(Backward, 1) lands at
position 2 with logical offset 3. -/
theorem relativeLine_landing (d : List GC) (tabSize : Nat) (c : CursorState)
    (dir : Direction) (count tgt tcol : Nat)
    (htgt : relativeTargetLine dir count (lineNumForPos d c.position) (numLines d - 1) = tgt)
    (hne : tgt ≠ lineNumForPos d c.position)
    (htcol : colOfPosAux tabSize (lineAt d (lineNumForPos d c.position)).content
        (lineStartOf d (lineNumForPos d c.position)) c.position 0 +
        c.logicalOffset = tcol) :
    ((∀ j, j < (lineAt d tgt).content.length →
        lineVisAux tabSize ((lineAt d tgt).content.take j) 0 ≤ tcol →
        tcol < lineVisAux tabSize ((lineAt d tgt).content.take j) 0 +
          gcVisualWidth tabSize (lineVisAux tabSize ((lineAt d tgt).content.take j) 0)
            ((lineAt d tgt).content.getD j default) →
        locate (Locator.relativeLine dir count) ⟨d, tabSize, c⟩ =
          ⟨lineStartOf d tgt + docWidth ((lineAt d tgt).content.take j),
           tcol - lineVisAux tabSize ((lineAt d tgt).content.take j) 0⟩) ∧
     ((lineAt d tgt).content ≠ [] →
        lineVisWidth tabSize (lineAt d tgt).content ≤ tcol →
        locate (Locator.relativeLine dir count) ⟨d, tabSize, c⟩ =
          ⟨lineStartOf d tgt +
             docWidth ((lineAt d tgt).content.take ((lineAt d tgt).content.length - 1)),
           tcol - lineVisAux tabSize
             ((lineAt d tgt).content.take ((lineAt d tgt).content.length - 1)) 0⟩) ∧
     ((lineAt d tgt).content = [] →
        locate (Locator.relativeLine dir count) ⟨d, tabSize, c⟩ =
          ⟨lineStartOf d tgt, tcol⟩)) ∧
    locate (Locator.relativeLine Direction.backward 1) ⟨docAbcEfghijkl, 4, ⟨9, 0⟩⟩ =
      ⟨2, 3⟩ := by
  have hbase : locate (Locator.relativeLine dir count) ⟨d, tabSize, c⟩ =
      ⟨(advanceToCol tabSize (lineAt d tgt).content (lineStartOf d tgt) 0 tcol).1,
       (advanceToCol tabSize (lineAt d tgt).content (lineStartOf d tgt) 0 tcol).2⟩ :=
    locateRelativeLine_walk dir count d tabSize c tgt tcol htgt hne htcol
  refine ⟨⟨?_, ?_, ?_⟩, by decide⟩
  · intro j hj hlo hhi
    rw [hbase, advanceToCol_hit tabSize _ _ 0 tcol j hj hlo hhi]
  · intro hne2 hexh
    rw [hbase, advanceToCol_exhaust tabSize _ _ 0 tcol hne2 hexh]
  · intro hempty
    rw [hbase, hempty, advanceToCol_nil]
    simp

/-- Witness for C1: the scenario itself, through the mid-content case of
the characterization (position 9 of "abc\nefghijkl" is column 5; the
first line "abc" is exhausted at visual width 3, so the walk lands on the
last cluster at position 2 with shortfall 3). -/
theorem relativeLine_landing_witness :
    locate (Locator.relativeLine Direction.backward 1) ⟨docAbcEfghijkl, 4, ⟨9, 0⟩⟩ =
      ⟨2, 3⟩ :=
  (relativeLine_landing docAbcEfghijkl 4 ⟨9, 0⟩ Direction.backward 1 0 5
    (by decide) (by decide) (by decide)).2

theorem docWidth_take_lt {content : List GC} (hv : ValidDoc content) {j : Nat}
    (hj : j < content.length) : docWidth (content.take j) < docWidth content := by
  rcases hd : content.drop j with _ | ⟨gc, rest⟩
  · exfalso
    have hh := congrArg List.length hd
    simp [List.length_drop] at hh
    omega
  · have hw : 1 ≤ gc.width := hv gc (List.drop_subset j content (by rw [hd]; simp))
    have hsum : docWidth content = docWidth (content.take j) + docWidth (content.drop j) := by
      rw [← docWidth_append, List.take_append_drop]
    rw [hd, docWidth_cons] at hsum
    omega

theorem relativeTargetLine_forward_gt {count cur lastLine : Nat} (hcur : cur ≤ lastLine)
    (hne : relativeTargetLine Direction.forward count cur lastLine ≠ cur) :
    cur < relativeTargetLine Direction.forward count cur lastLine ∧
      relativeTargetLine Direction.forward count cur lastLine ≤ lastLine := by
  simp only [relativeTargetLine] at hne ⊢
  omega

theorem relativeTargetLine_backward_lt {count cur lastLine : Nat}
    (hne : relativeTargetLine Direction.backward count cur lastLine ≠ cur) :
    relativeTargetLine Direction.backward count cur lastLine < cur := by
  simp only [relativeTargetLine] at hne ⊢
  omega

/-- A vertical move whose clamped target line differs from the current
line always changes the cursor position: the landing lies inside the
target line's span, disjoint from the position's own line span. -/
theorem relativeLine_moves (d : List GC) (tabSize : Nat) (c : CursorState)
    (dir : Direction) (count : Nat) (hv : ValidDoc d)
    (hne0 : relativeTargetLine dir count (lineNumForPos d c.position) (numLines d - 1) ≠
      lineNumForPos d c.position) :
    (locateRelativeLine dir count d tabSize c).position ≠ c.position := by
  have hcur : lineNumForPos d c.position < numLines d := lineNumForPos_lt d c.position
  obtain ⟨tgt, htgt⟩ : ∃ x, relativeTargetLine dir count (lineNumForPos d c.position)
      (numLines d - 1) = x := ⟨_, rfl⟩
  have hne : tgt ≠ lineNumForPos d c.position := by rw [← htgt]; exact hne0
  have hwalk := locateRelativeLine_walk dir count d tabSize c tgt
    (colOfPosAux tabSize (lineAt d (lineNumForPos d c.position)).content
      (lineStartOf d (lineNumForPos d c.position)) c.position 0 + c.logicalOffset)
    htgt hne rfl
  rw [hwalk]
  show (advanceToCol tabSize (lineAt d tgt).content (lineStartOf d tgt) 0
      (colOfPosAux tabSize (lineAt d (lineNumForPos d c.position)).content
        (lineStartOf d (lineNumForPos d c.position)) c.position 0 +
        c.logicalOffset)).1 ≠ c.position
  obtain ⟨j, hj, hpos⟩ := advanceToCol_pos_shape tabSize (lineAt d tgt).content
    (lineStartOf d tgt) 0
    (colOfPosAux tabSize (lineAt d (lineNumForPos d c.position)).content
      (lineStartOf d (lineNumForPos d c.position)) c.position 0 + c.logicalOffset)
  rw [hpos]
  cases dir with
  | forward =>
    obtain ⟨hgt, hle⟩ := relativeTargetLine_forward_gt
      (by omega : lineNumForPos d c.position ≤ numLines d - 1) (by rw [htgt]; exact hne)
    rw [htgt] at hgt hle
    have hsucclt : lineNumForPos d c.position + 1 < numLines d := by omega
    have h1 : c.position < lineStartOf d (lineNumForPos d c.position + 1) :=
      lt_lineStartOf_succ d c.position hsucclt
    have h2 : lineStartOf d (lineNumForPos d c.position + 1) ≤ lineStartOf d tgt :=
      lineStartOf_mono d (by omega)
    omega
  | backward =>
    have hlt : tgt < lineNumForPos d c.position := by
      have hh := relativeTargetLine_backward_lt (by rw [htgt]; exact hne)
      rw [htgt] at hh
      exact hh
    have htgtlt : tgt < numLines d := by omega
    have hvc : ValidDoc (lineAt d tgt).content := fun g hg =>
      posix_valid hv (lineAt_mem d tgt htgtlt) g (by simp [lineGCs, hg])
    have hbound : lineStartOf d tgt + docWidth ((lineAt d tgt).content.take j) <
        lineStartOf d (tgt + 1) := by
      rw [lineStartOf_succ d tgt htgtlt]
      rcases hj with hjlt | ⟨hemp, hj0⟩
      · have hcw : docWidth ((lineAt d tgt).content.take j) <
            docWidth (lineAt d tgt).content := docWidth_take_lt hvc hjlt
        have hlw : docWidth (lineAt d tgt).content ≤ lineWidth (lineAt d tgt) := by
          rw [lineWidth_eq]; omega
        omega
      · rcases hterm : (lineAt d tgt).term with _ | t
        · exfalso
          have hd0 : d = [] := posix_empty_line_nil (lineAt_mem d tgt htgtlt) hemp hterm
          subst hd0
          have : numLines ([] : List GC) = 1 := rfl
          omega
        · have hwt : 1 ≤ t.width :=
            posix_valid hv (lineAt_mem d tgt htgtlt) t (by simp [lineGCs, hterm])
          have hlw : lineWidth (lineAt d tgt) = docWidth (lineAt d tgt).content + t.width := by
            rw [lineWidth_eq, hterm]
            rw [show (some t).toList = [t] from rfl, docWidth_cons, docWidth_nil]
            omega
          rw [hemp, hj0]
          simp only [List.take_nil, docWidth_nil]
          omega
    have h2 : lineStartOf d (tgt + 1) ≤ lineStartOf d (lineNumForPos d c.position) :=
      lineStartOf_mono d (by omega)
    have h3 : lineStartOf d (lineNumForPos d c.position) ≤ c.position :=
      lineStartOf_lineNum_le d c.position
    omega

/-- C2: the logical-offset contract of the locators over every valid
buffer state: a position-changing call of any non-vertical locator resets
the logical offset to 0, and any call whose result position equals the
input position — including a RelativeLineLocator call clamped at the
first or last line — returns the caller's logical offset untouched. -/
theorem locate_logicalOffset_contract (s : BufferState) (l : Locator)
    (hv : ValidDoc s.doc) :
    ((∀ dir count, l ≠ Locator.relativeLine dir count) →
        (locate l s).position ≠ s.cursor.position → (locate l s).logicalOffset = 0) ∧
    ((locate l s).position = s.cursor.position →
        (locate l s).logicalOffset = s.cursor.logicalOffset) := by
  have key : ∀ (r : CursorState) (p : Nat), r = moveTo s.cursor p →
      (r.position ≠ s.cursor.position → r.logicalOffset = 0) ∧
      (r.position = s.cursor.position → r.logicalOffset = s.cursor.logicalOffset) := by
    intro r p hr
    subst hr
    unfold moveTo
    by_cases h : p = s.cursor.position
    · rw [if_pos h]
      exact ⟨fun hc => absurd rfl hc, fun _ => rfl⟩
    · rw [if_neg h]
      exact ⟨fun _ => rfl, fun hc => absurd hc h⟩
  cases l with
  | relativeLine dir count =>
    refine ⟨fun hforall => absurd rfl (hforall dir count), ?_⟩
    intro hpos
    by_cases hcl : relativeTargetLine dir count (lineNumForPos s.doc s.cursor.position)
        (numLines s.doc - 1) = lineNumForPos s.doc s.cursor.position
    · show (locateRelativeLine dir count s.doc s.tabSize s.cursor).logicalOffset = _
      rw [locateRelativeLine_clamped dir count s.doc s.tabSize s.cursor hcl]
    · exact absurd hpos (relativeLine_moves s.doc s.tabSize s.cursor dir count hv hcl)
  | charInLine dir count inc =>
    cases dir
    · exact ⟨fun _ => (key _ _ rfl).1, (key _ _ rfl).2⟩
    · exact ⟨fun _ => (key _ _ rfl).1, (key _ _ rfl).2⟩
  | ontoLine => exact ⟨fun _ => (key _ _ rfl).1, (key _ _ rfl).2⟩
  | relativeLineStart dir count => exact ⟨fun _ => (key _ _ rfl).1, (key _ _ rfl).2⟩
  | lineBoundary dir inc =>
    cases dir
    · exact ⟨fun _ => (key _ _ rfl).1, (key _ _ rfl).2⟩
    · exact ⟨fun _ => (key _ _ rfl).1, (key _ _ rfl).2⟩
  | nonWhitespaceOrNewline => exact ⟨fun _ => (key _ _ rfl).1, (key _ _ rfl).2⟩
  | lineNum n => exact ⟨fun _ => (key _ _ rfl).1, (key _ _ rfl).2⟩
  | lastLine => exact ⟨fun _ => (key _ _ rfl).1, (key _ _ rfl).2⟩

/-- Witness for C2: the contract at a concrete state and locator. -/
theorem locate_logicalOffset_contract_witness :
    ((∀ dir count, Locator.ontoLine ≠ Locator.relativeLine dir count) →
        (locate Locator.ontoLine ⟨docAbcdEfgh, 4, ⟨2, 5⟩⟩).position ≠ 2 →
        (locate Locator.ontoLine ⟨docAbcdEfgh, 4, ⟨2, 5⟩⟩).logicalOffset = 0) ∧
    ((locate Locator.ontoLine ⟨docAbcdEfgh, 4, ⟨2, 5⟩⟩).position = 2 →
        (locate Locator.ontoLine ⟨docAbcdEfgh, 4, ⟨2, 5⟩⟩).logicalOffset = 5) :=
  locate_logicalOffset_contract ⟨docAbcdEfgh, 4, ⟨2, 5⟩⟩ Locator.ontoLine (by decide)

theorem locate_relativeLine_eq (dir : Direction) (count : Nat) (s : BufferState) :
    locate (Locator.relativeLine dir count) s =
      locateRelativeLine dir count s.doc s.tabSize s.cursor := rfl

theorem gcVisualWidth_pos (t col : Nat) (gc : GC) (ht : 1 ≤ t) :
    1 ≤ gcVisualWidth t col gc := by
  unfold gcVisualWidth
  split
  · have hh := Nat.mod_lt col (show 0 < t by omega)
    omega
  · omega

theorem lineVisAux_take_le (t : Nat) (content : List GC) (i col : Nat) :
    lineVisAux t (content.take i) col ≤ lineVisAux t content col := by
  conv_rhs => rw [← List.take_append_drop i content]
  rw [lineVisAux_append]
  exact lineVisAux_ge t _ _

theorem lineVis_span_mem (t : Nat) (content : List GC) (col tc : Nat)
    (hcol : col ≤ tc) (hlt : tc < lineVisAux t content col) :
    ∃ i, i < content.length ∧ lineVisAux t (content.take i) col ≤ tc ∧
      tc < lineVisAux t (content.take i) col +
        gcVisualWidth t (lineVisAux t (content.take i) col) (content.getD i default) := by
  induction content generalizing col with
  | nil =>
    simp only [lineVisAux] at hlt
    omega
  | cons gc rest ih =>
    by_cases hstop : tc < col + gcVisualWidth t col gc
    · refine ⟨0, by simp, ?_, ?_⟩
      · simpa [lineVisAux] using hcol
      · simpa [lineVisAux, List.getD_cons_zero] using hstop
    · push_neg at hstop
      have hlt2 : tc < lineVisAux t rest (col + gcVisualWidth t col gc) := hlt
      obtain ⟨i, hi, h1, h2⟩ := ih (col + gcVisualWidth t col gc) hstop hlt2
      refine ⟨i + 1, by simpa using hi, ?_, ?_⟩
      · show lineVisAux t ((gc :: rest).take (i + 1)) col ≤ tc
        exact h1
      · show tc < lineVisAux t ((gc :: rest).take (i + 1)) col +
          gcVisualWidth t (lineVisAux t ((gc :: rest).take (i + 1)) col)
            ((gc :: rest).getD (i + 1) default)
        exact h2

theorem advanceToCol_colsum (t : Nat) (content : List GC) (s tc : Nat)
    (hvc : ValidDoc content) (ht : 1 ≤ t) :
    colOfPosAux t content s (advanceToCol t content s 0 tc).1 0 +
      (advanceToCol t content s 0 tc).2 = tc := by
  by_cases hemp : content = []
  · subst hemp
    rw [advanceToCol_nil]
    simp [colOfPosAux]
  · by_cases hlt : tc < lineVisWidth t content
    · obtain ⟨i, hi, hlow, hhigh⟩ := lineVis_span_mem t content 0 tc (Nat.zero_le _) hlt
      rw [advanceToCol_hit t content s 0 tc i hi hlow hhigh]
      show colOfPosAux t content s (s + docWidth (content.take i)) 0 +
        (tc - lineVisAux t (content.take i) 0) = tc
      rw [colOfPosAux_take t content s i 0 hvc (Nat.le_of_lt hi)]
      omega
    · push_neg at hlt
      rw [advanceToCol_exhaust t content s 0 tc hemp hlt]
      show colOfPosAux t content s (s + docWidth (content.take (content.length - 1))) 0 +
        (tc - lineVisAux t (content.take (content.length - 1)) 0) = tc
      rw [colOfPosAux_take t content s (content.length - 1) 0 hvc (by omega)]
      have hmon : lineVisAux t (content.take (content.length - 1)) 0 ≤
          lineVisWidth t content := lineVisAux_take_le t content _ 0
      omega

/-- Landing positions of the column walk stay on the target line. -/
theorem landing_lineNum (d : List GC) (hv : ValidDoc d) (m i : Nat) (hm : m < numLines d)
    (hi : i < (lineAt d m).content.length ∨ ((lineAt d m).content = [] ∧ i = 0)) :
    lineNumForPos d (lineStartOf d m + docWidth ((lineAt d m).content.take i)) = m := by
  refine lineNumForPos_eq_of_span d _ m hm (by omega) ?_
  rcases hi with hi | ⟨hemp, hi0⟩
  · left
    rw [lineStartOf_succ d m hm]
    have h1 : docWidth ((lineAt d m).content.take i) < docWidth (lineAt d m).content :=
      docWidth_take_lt
        (fun g hg => posix_valid hv (lineAt_mem d m hm) g (by simp [lineGCs, hg])) hi
    have h2 : docWidth (lineAt d m).content ≤ lineWidth (lineAt d m) := by
      rw [lineWidth_eq]; omega
    omega
  · subst hi0
    rw [hemp]
    simp only [List.take_nil, docWidth_nil]
    by_cases hlast : m + 1 = numLines d
    · right; exact hlast
    · left
      have hsome := posix_term_isSome d m (by omega)
      rcases hterm : (lineAt d m).term with _ | t2
      · rw [show (posixLines d).getD m default = lineAt d m from rfl, hterm] at hsome
        simp at hsome
      · have hwt : 1 ≤ t2.width :=
          posix_valid hv (lineAt_mem d m hm) t2 (by simp [lineGCs, hterm])
        rw [lineStartOf_succ d m hm]
        have h1 : 1 ≤ lineWidth (lineAt d m) := by
          rw [lineWidth_eq, hterm]
          rw [show (some t2).toList = [t2] from rfl, docWidth_cons]
          omega
        omega

/-- C8 (amended): moving down `count` lines and then up `count` lines
restores the original position and logical offset, provided no clamping
occurs, every line from the original line to the target line is at least
as long in visual columns as the original cursor column, and additionally
the cursor starts on a content grapheme cluster of its own line with
logical offset 0 (without this extra canonicality condition the round
trip can fail even under the claim's stated hypotheses). -/
theorem relativeLine_roundTrip (d : List GC) (tabSize count j : Nat) (c : CursorState)
    (hv : ValidDoc d) (ht : 1 ≤ tabSize)
    (hj : j < (lineAt d (lineNumForPos d c.position)).content.length)
    (hp : c.position = lineStartOf d (lineNumForPos d c.position) +
      docWidth ((lineAt d (lineNumForPos d c.position)).content.take j))
    (hlo : c.logicalOffset = 0)
    (hclamp : lineNumForPos d c.position + count ≤ numLines d - 1)
    (hlines : ∀ k, lineNumForPos d c.position ≤ k →
      k ≤ lineNumForPos d c.position + count →
      lineVisAux tabSize
          ((lineAt d (lineNumForPos d c.position)).content.take j) 0 ≤
        lineVisWidth tabSize (lineAt d k).content) :
    locate (Locator.relativeLine Direction.backward count)
      ⟨d, tabSize,
       locate (Locator.relativeLine Direction.forward count) ⟨d, tabSize, c⟩⟩ = c := by
  have hnlt : lineNumForPos d c.position < numLines d := lineNumForPos_lt d c.position
  by_cases hcnt : count = 0
  · subst hcnt
    have hcl : relativeTargetLine Direction.forward 0 (lineNumForPos d c.position)
        (numLines d - 1) = lineNumForPos d c.position := by
      simp only [relativeTargetLine]
      omega
    have h1 : locate (Locator.relativeLine Direction.forward 0) ⟨d, tabSize, c⟩ = c :=
      locateRelativeLine_clamped _ _ _ _ _ hcl
    rw [h1]
    have hcl2 : relativeTargetLine Direction.backward 0 (lineNumForPos d c.position)
        (numLines d - 1) = lineNumForPos d c.position := by
      simp only [relativeTargetLine]
      omega
    exact locateRelativeLine_clamped _ _ _ _ _ hcl2
  · obtain ⟨n, hn⟩ : ∃ x, lineNumForPos d c.position = x := ⟨_, rfl⟩
    rw [hn] at hj hp hclamp hnlt
    have hvcn : ValidDoc (lineAt d n).content := fun g hg =>
      posix_valid hv (lineAt_mem d n hnlt) g (by simp [lineGCs, hg])
    obtain ⟨col, hcol⟩ : ∃ x, lineVisAux tabSize ((lineAt d n).content.take j) 0 = x :=
      ⟨_, rfl⟩
    have htcol : colOfPosAux tabSize (lineAt d (lineNumForPos d c.position)).content
        (lineStartOf d (lineNumForPos d c.position)) c.position 0 + c.logicalOffset =
        col := by
      rw [hn, hp, hlo]
      rw [colOfPosAux_take tabSize _ _ j 0 hvcn (Nat.le_of_lt hj)]
      omega
    have hmlt : n + count < numLines d := by omega
    have htgtf : relativeTargetLine Direction.forward count (lineNumForPos d c.position)
        (numLines d - 1) = n + count := by
      simp only [relativeTargetLine, hn]
      omega
    have hnef : n + count ≠ lineNumForPos d c.position := by rw [hn]; omega
    have hdown : locate (Locator.relativeLine Direction.forward count) ⟨d, tabSize, c⟩ =
        ⟨(advanceToCol tabSize (lineAt d (n + count)).content
            (lineStartOf d (n + count)) 0 col).1,
         (advanceToCol tabSize (lineAt d (n + count)).content
            (lineStartOf d (n + count)) 0 col).2⟩ :=
      locateRelativeLine_walk Direction.forward count d tabSize c (n + count) col
        htgtf hnef htcol
    obtain ⟨q, o, hqo⟩ : ∃ q o, advanceToCol tabSize (lineAt d (n + count)).content
        (lineStartOf d (n + count)) 0 col = (q, o) := ⟨_, _, rfl⟩
    have hq1 : (advanceToCol tabSize (lineAt d (n + count)).content
        (lineStartOf d (n + count)) 0 col).1 = q := by rw [hqo]
    have hq2 : (advanceToCol tabSize (lineAt d (n + count)).content
        (lineStartOf d (n + count)) 0 col).2 = o := by rw [hqo]
    rw [hq1, hq2] at hdown
    rw [hdown]
    have hvcm : ValidDoc (lineAt d (n + count)).content := fun g hg =>
      posix_valid hv (lineAt_mem d _ hmlt) g (by simp [lineGCs, hg])
    obtain ⟨i, hishape, hposq⟩ := advanceToCol_pos_shape tabSize
      (lineAt d (n + count)).content (lineStartOf d (n + count)) 0 col
    rw [hq1] at hposq
    have hsum := advanceToCol_colsum tabSize (lineAt d (n + count)).content
      (lineStartOf d (n + count)) col hvcm ht
    rw [hq1, hq2] at hsum
    have hlq : lineNumForPos d q = n + count := by
      rw [hposq]
      exact landing_lineNum d hv (n + count) i hmlt hishape
    have htgtb : relativeTargetLine Direction.backward count
        (lineNumForPos d (⟨q, o⟩ : CursorState).position) (numLines d - 1) = n := by
      show relativeTargetLine Direction.backward count (lineNumForPos d q)
        (numLines d - 1) = n
      rw [hlq]
      simp only [relativeTargetLine]
      omega
    have hneb : n ≠ lineNumForPos d (⟨q, o⟩ : CursorState).position := by
      show n ≠ lineNumForPos d q
      rw [hlq]
      omega
    have htcol2 : colOfPosAux tabSize
        (lineAt d (lineNumForPos d (⟨q, o⟩ : CursorState).position)).content
        (lineStartOf d (lineNumForPos d (⟨q, o⟩ : CursorState).position))
        (⟨q, o⟩ : CursorState).position 0 +
        (⟨q, o⟩ : CursorState).logicalOffset = col := by
      show colOfPosAux tabSize (lineAt d (lineNumForPos d q)).content
        (lineStartOf d (lineNumForPos d q)) q 0 + o = col
      rw [hlq]
      exact hsum
    have hup : locate (Locator.relativeLine Direction.backward count)
        ⟨d, tabSize, ⟨q, o⟩⟩ =
        ⟨(advanceToCol tabSize (lineAt d n).content (lineStartOf d n) 0 col).1,
         (advanceToCol tabSize (lineAt d n).content (lineStartOf d n) 0 col).2⟩ :=
      locateRelativeLine_walk Direction.backward count d tabSize ⟨q, o⟩ n col
        htgtb hneb htcol2
    rw [hup]
    have hhit := advanceToCol_hit tabSize (lineAt d n).content (lineStartOf d n) 0 col j hj
      (by rw [hcol]) (by
        rw [hcol]
        have hw := gcVisualWidth_pos tabSize col ((lineAt d n).content.getD j default) ht
        omega)
    rw [hhit]
    have hoff : col - lineVisAux tabSize ((lineAt d n).content.take j) 0 = 0 := by omega
    show (⟨lineStartOf d n + docWidth ((lineAt d n).content.take j),
      col - lineVisAux tabSize ((lineAt d n).content.take j) 0⟩ : CursorState) = c
    rw [hoff]
    cases c with
    | mk cp cl =>
      simp only at hp hlo
      rw [hp, hlo]

/-- Witness for C8's amended statement: down one line then up one line on
"abcd\nefgh" from position 2 (a content cluster, offset 0). -/
theorem relativeLine_roundTrip_witness :
    locate (Locator.relativeLine Direction.backward 1)
      ⟨docAbcdEfgh, 4,
       locate (Locator.relativeLine Direction.forward 1) ⟨docAbcdEfgh, 4, ⟨2, 0⟩⟩⟩ =
      ⟨2, 0⟩ :=
  relativeLine_roundTrip docAbcdEfgh 4 1 2 ⟨2, 0⟩ (by decide) (by decide) (by decide)
    (by decide) (by decide) (by decide) (by decide)

/-- C8 counterexample: on "ab\ncd" with the cursor at position 2 (the
first line's terminator position, logical offset 0), no clamping occurs
and both lines have visual length 2, at least the cursor's column, yet
moving down one line and back up lands at position 1 with logical offset
1 instead of restoring position 2 with logical offset 0. -/
theorem relativeLine_roundTrip_cex :
    lineNumForPos docAbCd 2 + 1 ≤ numLines docAbCd - 1 ∧
    colOfPosAux 4 (lineAt docAbCd (lineNumForPos docAbCd 2)).content
      (lineStartOf docAbCd (lineNumForPos docAbCd 2)) 2 0 + 0 = 2 ∧
    (∀ k, k < numLines docAbCd → 2 ≤ lineVisWidth 4 (lineAt docAbCd k).content) ∧
    locate (Locator.relativeLine Direction.backward 1)
      ⟨docAbCd, 4,
       locate (Locator.relativeLine Direction.forward 1) ⟨docAbCd, 4, ⟨2, 0⟩⟩⟩ =
      ⟨1, 1⟩ ∧
    ((⟨1, 1⟩ : CursorState) ≠ ⟨2, 0⟩) := by
  refine ⟨by decide, by decide, ?_, by decide, by decide⟩
  intro k hk
  have hk2 : k = 0 ∨ k = 1 := by
    have hh : numLines docAbCd = 2 := rfl
    omega
  rcases hk2 with rfl | rfl <;> decide

/-- C4 (amended): for LineBoundaryLocator Forward on the last line of a
document with no trailing terminator, the landing depends on the flag:
with includeEndOfLineOrFile the result is the end-of-document position,
and without it the result is the start of the line's last content
grapheme cluster, one cluster before end of document. -/
theorem lineBoundary_forward_lastLine (d : List GC) (tabSize : Nat) (c : CursorState)
    (hv : ValidDoc d)
    (hn : lineNumForPos d c.position + 1 = numLines d)
    (ht : (lineAt d (lineNumForPos d c.position)).term = none) :
    (locate (Locator.lineBoundary Direction.forward true) ⟨d, tabSize, c⟩).position =
      docWidth d ∧
    (∀ gc, (lineAt d (lineNumForPos d c.position)).content.getLast? = some gc →
      (locate (Locator.lineBoundary Direction.forward false) ⟨d, tabSize, c⟩).position =
        docWidth d - gc.width) := by
  constructor
  · have h : locate (Locator.lineBoundary Direction.forward true) ⟨d, tabSize, c⟩ =
        moveTo c (contentEndOf d (lineNumForPos d c.position)) := rfl
    rw [h, moveTo_position]
    exact contentEnd_eq_docWidth_of_last d _ hn ht
  · intro gc hgl
    have h : locate (Locator.lineBoundary Direction.forward false) ⟨d, tabSize, c⟩ =
        moveTo c
          (match (lineAt d (lineNumForPos d c.position)).content.getLast? with
           | none => lineStartOf d (lineNumForPos d c.position)
           | some gc => contentEndOf d (lineNumForPos d c.position) - gc.width) := rfl
    rw [h, moveTo_position, hgl]
    rw [contentEnd_eq_docWidth_of_last d _ hn ht]

/-- Witness for C4's amended statement on "abcd\nefgh" at position 6. -/
theorem lineBoundary_forward_lastLine_witness :
    (locate (Locator.lineBoundary Direction.forward true)
        ⟨docAbcdEfgh, 4, ⟨6, 0⟩⟩).position = docWidth docAbcdEfgh ∧
    (locate (Locator.lineBoundary Direction.forward false)
        ⟨docAbcdEfgh, 4, ⟨6, 0⟩⟩).position = docWidth docAbcdEfgh - gcA.width :=
  ⟨(lineBoundary_forward_lastLine docAbcdEfgh 4 ⟨6, 0⟩ (by decide) (by decide) (by decide)).1,
   (lineBoundary_forward_lastLine docAbcdEfgh 4 ⟨6, 0⟩ (by decide) (by decide)
      (by decide)).2 gcA (by decide)⟩

/-- C4 counterexample: on "abcd\nefgh" the cursor at position 6 is on the
last line, which has no trailing terminator, yet Forward
LineBoundaryLocator without the flag lands at position 8 rather than at
the end-of-document position 9. -/
theorem lineBoundary_forward_lastLine_cex :
    lineNumForPos docAbcdEfgh 6 + 1 = numLines docAbcdEfgh ∧
    (lineAt docAbcdEfgh (lineNumForPos docAbcdEfgh 6)).term = none ∧
    docWidth docAbcdEfgh = 9 ∧
    (locate (Locator.lineBoundary Direction.forward false)
        ⟨docAbcdEfgh, 4, ⟨6, 0⟩⟩).position = 8 ∧
    (locate (Locator.lineBoundary Direction.forward false)
        ⟨docAbcdEfgh, 4, ⟨6, 0⟩⟩).position ≠ docWidth docAbcdEfgh := by
  refine ⟨by decide, by decide, by decide, by decide, by decide⟩

/-! Classification of cluster lookups at arbitrary boundaries: every
boundary position is a prefix point of its own line's content (or the end
of the document), which pins down what clusterAt and clusterBefore see. -/

theorem numLines_pos (d : List GC) : 0 < numLines d :=
  List.length_pos.mpr (posixLines_ne_nil d)

theorem clusterAt_none_eq {d : List GC} {p : Nat} (hv : ValidDoc d)
    (hb : isBoundary d p = true) (hc : clusterAt d p = none) : p = docWidth d := by
  obtain ⟨zs, hzs, hw⟩ := suffixFrom_split hv hb
  rcases hs : suffixFrom d p with _ | ⟨gc, rest⟩
  · rw [hs, List.append_nil] at hzs
    rw [hzs, hw]
  · unfold clusterAt at hc
    rw [hs] at hc
    simp at hc

theorem boundary_classify_lineNum (d : List GC) (hv : ValidDoc d) {p : Nat}
    (hb : isBoundary d p = true) :
    (∃ j, j ≤ (lineAt d (lineNumForPos d p)).content.length ∧
      p = lineStartOf d (lineNumForPos d p) +
        docWidth ((lineAt d (lineNumForPos d p)).content.take j)) ∨
    p = docWidth d := by
  by_cases hl : lineNumForPos d p + 1 < numLines d
  · exact Or.inl (boundary_classify d hv hb (lineNumForPos_lt d p)
      (lineStartOf_lineNum_le d p) (lt_lineStartOf_succ d p hl))
  · have hlast : lineNumForPos d p + 1 = numLines d := by
      have := lineNumForPos_lt d p
      omega
    exact boundary_classify_last d hv hb hlast (lineStartOf_lineNum_le d p)

theorem lineNum_contentEnd (d : List GC) (hv : ValidDoc d) (n : Nat) (hn : n < numLines d) :
    lineNumForPos d (contentEndOf d n) = n := by
  refine lineNumForPos_eq_of_span d _ n hn (by unfold contentEndOf; omega) ?_
  rcases hterm : (lineAt d n).term with _ | t
  · by_cases hlast : n + 1 = numLines d
    · exact Or.inr hlast
    · exfalso
      have hsome := posix_term_isSome d n (by omega)
      rw [show (posixLines d).getD n default = lineAt d n from rfl, hterm] at hsome
      simp at hsome
  · exact Or.inl (contentEnd_lt_lineStartOf_succ d hv n hn hterm)

theorem docWidth_take_le (content : List GC) (i : Nat) :
    docWidth (content.take i) ≤ docWidth content := by
  conv_rhs => rw [← List.take_append_drop i content]
  rw [docWidth_append]
  omega

theorem lineNum_take_point (d : List GC) (hv : ValidDoc d) (n i : Nat)
    (hn : n < numLines d) (hi : i ≤ (lineAt d n).content.length) :
    lineNumForPos d (lineStartOf d n + docWidth ((lineAt d n).content.take i)) = n := by
  by_cases hlt : i < (lineAt d n).content.length
  · exact landing_lineNum d hv n i hn (Or.inl hlt)
  · have hsat : (lineAt d n).content.take i = (lineAt d n).content :=
      List.take_of_length_le (by omega)
    rw [hsat]
    exact lineNum_contentEnd d hv n hn

theorem clusterAt_nonNewline_step (d : List GC) (hv : ValidDoc d) {p : Nat} {gc : GC}
    (hb : isBoundary d p = true) (hc : clusterAt d p = some gc)
    (hk : gc.kind ≠ GKind.newline) :
    ∃ j, j < (lineAt d (lineNumForPos d p)).content.length ∧
      p = lineStartOf d (lineNumForPos d p) +
        docWidth ((lineAt d (lineNumForPos d p)).content.take j) ∧
      gc = (lineAt d (lineNumForPos d p)).content.getD j default := by
  rcases boundary_classify_lineNum d hv hb with ⟨j, hj, hpj⟩ | hend
  · by_cases hjlt : j < (lineAt d (lineNumForPos d p)).content.length
    · refine ⟨j, hjlt, hpj, ?_⟩
      have hca := clusterAt_lineContent d hv _ j (lineNumForPos_lt d p) hjlt
      rw [← hpj, hc] at hca
      exact Option.some.inj hca
    · exfalso
      have hsat : (lineAt d (lineNumForPos d p)).content.take j =
          (lineAt d (lineNumForPos d p)).content := List.take_of_length_le (by omega)
      rw [hsat] at hpj
      rcases hterm : (lineAt d (lineNumForPos d p)).term with _ | t
      · by_cases hlast : lineNumForPos d p + 1 = numLines d
        · have hnone := clusterAt_contentEnd_none d hv _ hlast hterm
          rw [show contentEndOf d (lineNumForPos d p) =
            lineStartOf d (lineNumForPos d p) +
              docWidth (lineAt d (lineNumForPos d p)).content from rfl, ← hpj, hc] at hnone
          exact Option.noConfusion hnone
        · have hsome := posix_term_isSome d (lineNumForPos d p)
            (by have := lineNumForPos_lt d p; omega)
          rw [show (posixLines d).getD (lineNumForPos d p) default =
            lineAt d (lineNumForPos d p) from rfl, hterm] at hsome
          simp at hsome
      · have hce := clusterAt_contentEnd_term d hv _ (lineNumForPos_lt d p) hterm
        rw [show contentEndOf d (lineNumForPos d p) =
          lineStartOf d (lineNumForPos d p) +
            docWidth (lineAt d (lineNumForPos d p)).content from rfl, ← hpj, hc] at hce
        have hgt : gc = t := by injection hce
        have hkind := posix_term_kind (lineAt_mem d _ (lineNumForPos_lt d p)) t hterm
        rw [← hgt] at hkind
        exact hk hkind
  · rw [hend, clusterAt_docWidth d hv] at hc
    exact Option.noConfusion hc

theorem clusterAt_step_sameLine (d : List GC) (hv : ValidDoc d) {p : Nat} {gc : GC}
    (hb : isBoundary d p = true) (hc : clusterAt d p = some gc)
    (hk : gc.kind ≠ GKind.newline) :
    lineNumForPos d (p + gc.width) = lineNumForPos d p ∧
      p + gc.width ≤ contentEndOf d (lineNumForPos d p) ∧
      isBoundary d (p + gc.width) = true := by
  obtain ⟨j, hjlt, hpj, hgc⟩ := clusterAt_nonNewline_step d hv hb hc hk
  have htake : (lineAt d (lineNumForPos d p)).content.take (j + 1) =
      (lineAt d (lineNumForPos d p)).content.take j ++
        [(lineAt d (lineNumForPos d p)).content.getD j default] := by
    rw [List.take_succ, List.getD_eq_getElem _ _ hjlt, List.getElem?_eq_getElem hjlt]
    rfl
  have hw1 : p + gc.width = lineStartOf d (lineNumForPos d p) +
      docWidth ((lineAt d (lineNumForPos d p)).content.take (j + 1)) := by
    rw [htake, docWidth_append, docWidth_cons, docWidth_nil, hgc]
    omega
  refine ⟨?_, ?_, ?_⟩
  · rw [hw1]
    exact lineNum_take_point d hv _ (j + 1) (lineNumForPos_lt d p) (by omega)
  · rw [hw1]
    unfold contentEndOf
    have := docWidth_take_le (lineAt d (lineNumForPos d p)).content (j + 1)
    omega
  · rw [hw1]
    exact isBoundary_lineContent d _ (j + 1) (lineNumForPos_lt d p)

theorem clusterBefore_lineContent (d : List GC) (hv : ValidDoc d) (n j : Nat)
    (hn : n < numLines d) (hj : j < (lineAt d n).content.length) :
    clusterBefore d (lineStartOf d n + docWidth ((lineAt d n).content.take (j + 1))) =
      some ((lineAt d n).content.getD j default) := by
  obtain ⟨A, B, hdec, hwA⟩ := posix_decomp_parts d n hn
  obtain ⟨cnt, hcEq⟩ : ∃ cnt, (lineAt d n).content = cnt := ⟨_, rfl⟩
  obtain ⟨tl, htlEq⟩ : ∃ tl, (lineAt d n).term.toList = tl := ⟨_, rfl⟩
  rw [hcEq, htlEq] at hdec
  rw [hcEq] at hj ⊢
  have hgd : cnt.getD j default :: cnt.drop (j + 1) = cnt.drop j := by
    rw [List.getD_eq_getElem _ _ hj]
    exact (List.drop_eq_getElem_cons hj).symm
  have hcsplit : cnt = cnt.take j ++ cnt.getD j default :: cnt.drop (j + 1) := by
    rw [hgd, List.take_append_drop]
  have hsplit2 : d = (A ++ cnt.take j) ++
      (cnt.getD j default :: (cnt.drop (j + 1) ++ (tl ++ B))) := by
    rw [hdec]
    conv_lhs => rw [hcsplit]
    simp [List.append_assoc]
  have hcb := @clusterBefore_at (A ++ cnt.take j) (cnt.getD j default)
    (cnt.drop (j + 1) ++ (tl ++ B)) (hsplit2 ▸ hv)
  rw [← hsplit2] at hcb
  have htake : cnt.take (j + 1) = cnt.take j ++ [cnt.getD j default] := by
    rw [List.take_succ, List.getD_eq_getElem _ _ hj, List.getElem?_eq_getElem hj]
    rfl
  have hwsum : lineStartOf d n + docWidth (cnt.take (j + 1)) =
      docWidth (A ++ cnt.take j) + (cnt.getD j default).width := by
    rw [htake, docWidth_append, docWidth_append, hwA, docWidth_cons, docWidth_nil]
    omega
  rw [hwsum]
  exact hcb

theorem clusterBefore_lineStart (d : List GC) (hv : ValidDoc d) (n : Nat)
    (hn : n + 1 < numLines d) {t : GC} (ht : (lineAt d n).term = some t) :
    clusterBefore d (lineStartOf d (n + 1)) = some t := by
  obtain ⟨A, B, hdec, hwA⟩ := posix_decomp_parts d n (by omega)
  obtain ⟨cnt, hcEq⟩ : ∃ cnt, (lineAt d n).content = cnt := ⟨_, rfl⟩
  rw [hcEq, ht] at hdec
  have hsplit2 : d = (A ++ cnt) ++ (t :: B) := by
    rw [hdec]
    simp [List.append_assoc]
  have hcb := @clusterBefore_at (A ++ cnt) t B (hsplit2 ▸ hv)
  rw [← hsplit2] at hcb
  have hls : lineStartOf d (n + 1) = docWidth (A ++ cnt) + t.width := by
    rw [lineStartOf_succ d n (by omega), lineWidth_eq, hcEq, ht, docWidth_append, hwA]
    rw [show (some t).toList = [t] from rfl, docWidth_cons, docWidth_nil]
    omega
  rw [hls]
  exact hcb

theorem clusterBefore_docWidth_term (d : List GC) (hv : ValidDoc d) {t : GC}
    (ht : (lineAt d (numLines d - 1)).term = some t) :
    clusterBefore d (docWidth d) = some t := by
  have hn : numLines d - 1 + 1 = numLines d := by
    have := numLines_pos d
    omega
  obtain ⟨A, hdec, hwA⟩ := posix_decomp_parts_last d (numLines d - 1) hn
  obtain ⟨cnt, hcEq⟩ : ∃ cnt, (lineAt d (numLines d - 1)).content = cnt := ⟨_, rfl⟩
  rw [hcEq, ht] at hdec
  have hsplit2 : d = (A ++ cnt) ++ (t :: []) := by
    rw [hdec]
    simp [List.append_assoc]
  have hcb := @clusterBefore_at (A ++ cnt) t [] (hsplit2 ▸ hv)
  rw [← hsplit2] at hcb
  have hwd : docWidth d = docWidth (A ++ cnt) + t.width := by
    conv_lhs => rw [hsplit2]
    rw [docWidth_append, docWidth_cons, docWidth_nil]
    omega
  rw [hwd]
  exact hcb

theorem lineNum_docWidth (d : List GC) : lineNumForPos d (docWidth d) = numLines d - 1 := by
  have hpos := numLines_pos d
  refine lineNumForPos_eq_of_span d _ _ (by omega) (lineStartOf_le_docWidth d _)
    (Or.inr (by omega))

theorem clusterBefore_step_sameLine (d : List GC) (hv : ValidDoc d) {p : Nat} {gc : GC}
    (hb : isBoundary d p = true) (hc : clusterBefore d p = some gc)
    (hk : gc.kind ≠ GKind.newline) :
    gc.width ≤ p ∧ isBoundary d (p - gc.width) = true ∧
      lineNumForPos d (p - gc.width) = lineNumForPos d p := by
  have hgen : ∀ n j, n < numLines d → j < (lineAt d n).content.length →
      p = lineStartOf d n + docWidth ((lineAt d n).content.take (j + 1)) →
      lineNumForPos d p = n →
      gc.width ≤ p ∧ isBoundary d (p - gc.width) = true ∧
        lineNumForPos d (p - gc.width) = lineNumForPos d p := by
    intro n j hn hjlt hpj hlp
    have hcb := clusterBefore_lineContent d hv n j hn hjlt
    rw [← hpj, hc] at hcb
    have hgc : gc = (lineAt d n).content.getD j default :=
      Option.some.inj hcb
    have htake : (lineAt d n).content.take (j + 1) =
        (lineAt d n).content.take j ++ [(lineAt d n).content.getD j default] := by
      rw [List.take_succ, List.getD_eq_getElem _ _ hjlt, List.getElem?_eq_getElem hjlt]
      rfl
    have hw1 : p - gc.width = lineStartOf d n + docWidth ((lineAt d n).content.take j) ∧
        gc.width ≤ p := by
      rw [hpj, htake, docWidth_append, docWidth_cons, docWidth_nil, hgc]
      omega
    refine ⟨hw1.2, ?_, ?_⟩
    · rw [hw1.1]
      exact isBoundary_lineContent d n j hn
    · rw [hw1.1, hlp]
      exact lineNum_take_point d hv n j hn (by omega)
  rcases boundary_classify_lineNum d hv hb with ⟨j, hj, hpj⟩ | hend
  · rcases j with _ | j'
    · exfalso
      simp only [List.take_zero, docWidth_nil, Nat.add_zero] at hpj
      rcases hnn : lineNumForPos d p with _ | m
      · rw [hnn] at hpj
        rw [hpj, show lineStartOf d 0 = 0 from lineStartAux_zero _, clusterBefore_zero] at hc
        exact Option.noConfusion hc
      · have hmlt : m + 1 < numLines d := by
          have := lineNumForPos_lt d p
          omega
        have hsome := posix_term_isSome d m (by omega)
        rw [show (posixLines d).getD m default = lineAt d m from rfl] at hsome
        rcases hterm : (lineAt d m).term with _ | t
        · rw [hterm] at hsome
          simp at hsome
        · have hcb := clusterBefore_lineStart d hv m hmlt hterm
          rw [hnn] at hpj
          rw [← hpj, hc] at hcb
          have hgt : gc = t := by injection hcb
          have hkind := posix_term_kind (lineAt_mem d m (by omega)) t hterm
          rw [← hgt] at hkind
          exact hk hkind
    · exact hgen (lineNumForPos d p) j' (lineNumForPos_lt d p) (by omega) hpj rfl
  · rcases hterm : (lineAt d (numLines d - 1)).term with _ | t
    · have hlast : numLines d - 1 + 1 = numLines d := by
        have := numLines_pos d
        omega
      have hce : contentEndOf d (numLines d - 1) = docWidth d :=
        contentEnd_eq_docWidth_of_last d _ hlast hterm
      rcases hcnt : (lineAt d (numLines d - 1)).content with _ | ⟨g0, cr⟩
      · exfalso
        have hls : p = lineStartOf d (numLines d - 1) := by
          rw [hend, ← hce]
          unfold contentEndOf
          rw [hcnt, docWidth_nil]
          omega
        rcases hL : numLines d - 1 with _ | m
        · rw [hL] at hls
          rw [hls, show lineStartOf d 0 = 0 from lineStartAux_zero _, clusterBefore_zero] at hc
          exact Option.noConfusion hc
        · have hmlt : m + 1 < numLines d := by omega
          have hsome := posix_term_isSome d m (by omega)
          rw [show (posixLines d).getD m default = lineAt d m from rfl] at hsome
          rcases hterm2 : (lineAt d m).term with _ | t2
          · rw [hterm2] at hsome
            simp at hsome
          · have hcb := clusterBefore_lineStart d hv m hmlt hterm2
            rw [hL] at hls
            rw [← hls, hc] at hcb
            have hgt : gc = t2 := by injection hcb
            have hkind := posix_term_kind (lineAt_mem d m (by omega)) t2 hterm2
            rw [← hgt] at hkind
            exact hk hkind
      · have hlen : 0 < (lineAt d (numLines d - 1)).content.length := by
          rw [hcnt]
          simp
        have hpj : p = lineStartOf d (numLines d - 1) +
            docWidth ((lineAt d (numLines d - 1)).content.take
              ((lineAt d (numLines d - 1)).content.length - 1 + 1)) := by
          rw [show (lineAt d (numLines d - 1)).content.length - 1 + 1 =
            (lineAt d (numLines d - 1)).content.length from by omega]
          rw [List.take_length, hend, ← hce]
          rfl
        have hlp : lineNumForPos d p = numLines d - 1 := by
          rw [hend]
          exact lineNum_docWidth d
        exact hgen (numLines d - 1) ((lineAt d (numLines d - 1)).content.length - 1)
          (by have := numLines_pos d; omega) (by omega) hpj hlp
    · exfalso
      have hcb := clusterBefore_docWidth_term d hv hterm
      rw [← hend, hc] at hcb
      have hgt : gc = t := by injection hcb
      have hkind := posix_term_kind (lineAt_mem d _ (by have := numLines_pos d; omega)) t hterm
      rw [← hgt] at hkind
      exact hk hkind

/-! The character scans stay on the cursor's line. -/

theorem nextCharInLine_sameLine (d : List GC) (hv : ValidDoc d) (p count : Nat) (inc : Bool)
    (hb : isBoundary d p = true) :
    lineNumForPos d (nextCharInLine d p count inc) = lineNumForPos d p ∧
      isBoundary d (nextCharInLine d p count inc) = true := by
  induction count generalizing p with
  | zero => exact ⟨by trivial, hb⟩
  | succ m ih =>
    unfold nextCharInLine
    rcases hca : clusterAt d p with _ | gc
    · simp only [hca]
      exact ⟨by trivial, hb⟩
    · by_cases hknl : gc.kind = GKind.newline
      · simp only [hca, if_pos hknl]
        exact ⟨by trivial, hb⟩
      · simp only [hca, if_neg hknl]
        obtain ⟨hline, hle, hb2⟩ := clusterAt_step_sameLine d hv hb hca hknl
        rcases hca2 : clusterAt d (p + gc.width) with _ | gc2
        · simp only [hca2]
          cases inc
          · rw [if_neg (by simp)]
            exact ⟨by trivial, hb⟩
          · rw [if_pos rfl]
            exact ⟨hline, hb2⟩
        · by_cases hk2 : gc2.kind = GKind.newline
          · simp only [hca2, if_pos hk2]
            cases inc
            · rw [if_neg (by simp)]
              exact ⟨by trivial, hb⟩
            · rw [if_pos rfl]
              exact ⟨hline, hb2⟩
          · simp only [hca2, if_neg hk2]
            obtain ⟨hline2, hb3⟩ := ih (p + gc.width) hb2
            exact ⟨hline2.trans hline, hb3⟩

theorem prevCharInLine_sameLine (d : List GC) (hv : ValidDoc d) (p count : Nat)
    (hb : isBoundary d p = true) :
    lineNumForPos d (prevCharInLine d p count false) = lineNumForPos d p ∧
      isBoundary d (prevCharInLine d p count false) = true := by
  induction count generalizing p with
  | zero => exact ⟨by trivial, hb⟩
  | succ m ih =>
    unfold prevCharInLine
    rcases hcb : clusterBefore d p with _ | gc
    · simp only [hcb]
      exact ⟨by trivial, hb⟩
    · by_cases hknl : gc.kind = GKind.newline
      · simp only [hcb, if_pos hknl]
        rw [if_neg (by simp)]
        exact ⟨by trivial, hb⟩
      · simp only [hcb, if_neg hknl]
        obtain ⟨hwle, hb2, hline⟩ := clusterBefore_step_sameLine d hv hb hcb hknl
        obtain ⟨hline2, hb3⟩ := ih (p - gc.width) hb2
        exact ⟨hline2.trans hline, hb3⟩

theorem prevCharInLine_boundary (d : List GC) (hv : ValidDoc d) (p count : Nat) (inc : Bool)
    (hb : isBoundary d p = true) :
    isBoundary d (prevCharInLine d p count inc) = true := by
  induction count generalizing p with
  | zero => exact hb
  | succ m ih =>
    unfold prevCharInLine
    rcases hcb : clusterBefore d p with _ | gc
    · simp only [hcb]
      exact hb
    · have hstep := clusterBefore_boundary_step hv hb hcb
      by_cases hknl : gc.kind = GKind.newline
      · simp only [hcb, if_pos hknl]
        cases inc
        · rw [if_neg (by simp)]
          exact hb
        · rw [if_pos rfl]
          exact hstep.2
      · simp only [hcb, if_neg hknl]
        exact ih _ hstep.2

/-- C3 (amended): CharInLineLocator stays on the cursor's current line
for direction Forward with either flag value and for direction Backward
with the flag unset: the result has the same line number as the input
cursor, hence a backward move never lands before the line start.  With
direction Backward and the flag SET the scan may additionally step onto
the preceding line's terminator (the backspace line-join case), so the
spec's "for both values of includeEndOfLineOrFile" is too strong. -/
theorem charInLine_sameLine (s : BufferState) (count : Nat) (hv : ValidDoc s.doc)
    (hb : isBoundary s.doc s.cursor.position = true) :
    (∀ inc, lineNumForPos s.doc
        (locate (Locator.charInLine Direction.forward count inc) s).position =
      lineNumForPos s.doc s.cursor.position) ∧
    lineNumForPos s.doc
        (locate (Locator.charInLine Direction.backward count false) s).position =
      lineNumForPos s.doc s.cursor.position ∧
    lineStartOf s.doc (lineNumForPos s.doc s.cursor.position) ≤
      (locate (Locator.charInLine Direction.backward count false) s).position := by
  refine ⟨?_, ?_, ?_⟩
  · intro inc
    show lineNumForPos s.doc
      (moveTo s.cursor (nextCharInLine s.doc s.cursor.position count inc)).position = _
    rw [moveTo_position]
    exact (nextCharInLine_sameLine s.doc hv s.cursor.position count inc hb).1
  · show lineNumForPos s.doc
      (moveTo s.cursor (prevCharInLine s.doc s.cursor.position count false)).position = _
    rw [moveTo_position]
    exact (prevCharInLine_sameLine s.doc hv s.cursor.position count hb).1
  · show lineStartOf s.doc (lineNumForPos s.doc s.cursor.position) ≤
      (moveTo s.cursor (prevCharInLine s.doc s.cursor.position count false)).position
    rw [moveTo_position]
    have h1 := (prevCharInLine_sameLine s.doc hv s.cursor.position count hb).1
    have h2 := lineStartOf_lineNum_le s.doc
      (prevCharInLine s.doc s.cursor.position count false)
    rw [h1] at h2
    exact h2

theorem charInLine_sameLine_witness :
    ValidDoc docAbcdEfgh ∧ isBoundary docAbcdEfgh (6 : Nat) = true ∧
    ((∀ inc, lineNumForPos docAbcdEfgh
        (locate (Locator.charInLine Direction.forward 2 inc)
          ⟨docAbcdEfgh, 4, ⟨6, 0⟩⟩).position =
      lineNumForPos docAbcdEfgh 6) ∧
    lineNumForPos docAbcdEfgh
        (locate (Locator.charInLine Direction.backward 2 false)
          ⟨docAbcdEfgh, 4, ⟨6, 0⟩⟩).position =
      lineNumForPos docAbcdEfgh 6 ∧
    lineStartOf docAbcdEfgh (lineNumForPos docAbcdEfgh 6) ≤
      (locate (Locator.charInLine Direction.backward 2 false)
        ⟨docAbcdEfgh, 4, ⟨6, 0⟩⟩).position) :=
  ⟨by decide, by decide,
    charInLine_sameLine ⟨docAbcdEfgh, 4, ⟨6, 0⟩⟩ 2 (by decide) (by decide)⟩

/-- C3, counterexample: on "abcd\nefgh" with the cursor at position 5
(the start of the second line), CharInLineLocator(Backward, 1) with
includeEndOfLineOrFile SET lands on position 4 — the first line's
terminator — which is before the start (5) of the line containing the
input cursor and on a different line, contradicting the claim's "for
both values of includeEndOfLineOrFile".  This is exactly the behavior
the implementation's own test suite demands of the backspace motion. -/
theorem charInLine_backward_include_cex :
    (locate (Locator.charInLine Direction.backward 1 true)
        ⟨docAbcdEfgh, 4, ⟨5, 0⟩⟩).position = 4 ∧
    lineStartOf docAbcdEfgh (lineNumForPos docAbcdEfgh 5) = 5 ∧
    (locate (Locator.charInLine Direction.backward 1 true)
        ⟨docAbcdEfgh, 4, ⟨5, 0⟩⟩).position <
      lineStartOf docAbcdEfgh (lineNumForPos docAbcdEfgh 5) ∧
    lineNumForPos docAbcdEfgh
        (locate (Locator.charInLine Direction.backward 1 true)
          ⟨docAbcdEfgh, 4, ⟨5, 0⟩⟩).position ≠
      lineNumForPos docAbcdEfgh 5 := by
  refine ⟨by decide, by decide, by decide, by decide⟩

/-! Every locator lands on a cluster boundary inside the document. -/

theorem isBoundary_lineStart (d : List GC) (n : Nat) (hn : n < numLines d) :
    isBoundary d (lineStartOf d n) = true := by
  have h := isBoundary_lineContent d n 0 hn
  simpa [docWidth_nil] using h

theorem isBoundary_contentEnd (d : List GC) (n : Nat) (hn : n < numLines d) :
    isBoundary d (contentEndOf d n) = true := by
  have h := isBoundary_lineContent d n (lineAt d n).content.length hn
  rw [List.take_length] at h
  unfold contentEndOf
  exact h

theorem isBoundary_lastClusterStart (d : List GC) (n : Nat) {gc : GC}
    (hn : n < numLines d) (hgl : (lineAt d n).content.getLast? = some gc) :
    isBoundary d (contentEndOf d n - gc.width) = true := by
  have hdecomp : (lineAt d n).content.dropLast ++ [gc] = (lineAt d n).content :=
    List.dropLast_append_getLast? gc (by rw [hgl]; rfl)
  have hwc : docWidth (lineAt d n).content =
      docWidth (lineAt d n).content.dropLast + gc.width := by
    conv_lhs => rw [← hdecomp]
    rw [docWidth_append, docWidth_cons, docWidth_nil]
    omega
  have hdl : (lineAt d n).content.dropLast =
      (lineAt d n).content.take ((lineAt d n).content.length - 1) :=
    List.dropLast_eq_take _
  have hce : contentEndOf d n - gc.width =
      lineStartOf d n +
        docWidth ((lineAt d n).content.take ((lineAt d n).content.length - 1)) := by
    unfold contentEndOf
    rw [← hdl]
    omega
  rw [hce]
  exact isBoundary_lineContent d n _ hn

theorem closestCharOnLine_boundary (d : List GC) (p : Nat)
    (hb : isBoundary d p = true) :
    isBoundary d (closestCharOnLine d p) = true := by
  by_cases hlt : p < contentEndOf d (lineNumForPos d p)
  · have hp : closestCharOnLine d p = p := by
      unfold closestCharOnLine
      rw [if_pos hlt]
    rw [hp]
    exact hb
  · have hq : closestCharOnLine d p =
        (match (lineAt d (lineNumForPos d p)).content.getLast? with
         | none => lineStartOf d (lineNumForPos d p)
         | some gc => contentEndOf d (lineNumForPos d p) - gc.width) := by
      unfold closestCharOnLine
      rw [if_neg hlt]
    have hnlt := lineNumForPos_lt d p
    rcases hgl : (lineAt d (lineNumForPos d p)).content.getLast? with _ | gc
    · rw [hq, hgl]
      exact isBoundary_lineStart d _ hnlt
    · rw [hq, hgl]
      exact isBoundary_lastClusterStart d _ hnlt hgl

theorem nonWsAux_boundary (ys : List GC) : ∀ zs d, d = zs ++ ys →
    isBoundary d (nonWsAux ys (docWidth zs)) = true := by
  induction ys with
  | nil =>
    intro zs d hd
    show isBoundary d (docWidth zs) = true
    rw [hd]
    exact isBoundary_prefixWidth zs []
  | cons gc rest ih =>
    intro zs d hd
    show isBoundary d (if gc.kind = GKind.space ∨ gc.kind = GKind.tab
      then nonWsAux rest (docWidth zs + gc.width) else docWidth zs) = true
    by_cases hws : gc.kind = GKind.space ∨ gc.kind = GKind.tab
    · rw [if_pos hws]
      have hzw : docWidth zs + gc.width = docWidth (zs ++ [gc]) := by
        rw [docWidth_append, docWidth_cons, docWidth_nil]
        omega
      rw [hzw]
      refine ih (zs ++ [gc]) d ?_
      rw [hd]
      simp
    · rw [if_neg hws, hd]
      exact isBoundary_prefixWidth zs (gc :: rest)

theorem relativeTargetLine_lt (d : List GC) (dir : Direction) (count : Nat) (p : Nat) :
    relativeTargetLine dir count (lineNumForPos d p) (numLines d - 1) < numLines d := by
  have h1 := lineNumForPos_lt d p
  have h2 := numLines_pos d
  cases dir
  · show min (lineNumForPos d p + count) (numLines d - 1) < numLines d
    omega
  · show lineNumForPos d p - count < numLines d
    omega

/-- C6: on every valid document, every one of the eight locators maps a
cursor sitting on a grapheme-cluster boundary to a position that is again
a grapheme-cluster boundary and lies in the interval from 0 to the
document length. -/
theorem locate_inBounds (s : BufferState) (l : Locator) (hv : ValidDoc s.doc)
    (hb : isBoundary s.doc s.cursor.position = true) :
    (locate l s).position ≤ docWidth s.doc ∧
      isBoundary s.doc (locate l s).position = true := by
  have main : isBoundary s.doc (locate l s).position = true := by
    rcases l with ⟨dir, count, inc⟩ | _ | ⟨dir, count⟩ | ⟨dir, count⟩ | ⟨dir, inc⟩ | _ | n | _
    · cases dir
      · show isBoundary s.doc
          (moveTo s.cursor (nextCharInLine s.doc s.cursor.position count inc)).position = true
        rw [moveTo_position]
        exact (nextCharInLine_sameLine s.doc hv s.cursor.position count inc hb).2
      · show isBoundary s.doc
          (moveTo s.cursor (prevCharInLine s.doc s.cursor.position count inc)).position = true
        rw [moveTo_position]
        exact prevCharInLine_boundary s.doc hv s.cursor.position count inc hb
    · show isBoundary s.doc
        (moveTo s.cursor (closestCharOnLine s.doc s.cursor.position)).position = true
      rw [moveTo_position]
      exact closestCharOnLine_boundary s.doc s.cursor.position hb
    · show isBoundary s.doc
        (moveTo s.cursor
          (lineStartOf s.doc
            (relativeTargetLine dir count (lineNumForPos s.doc s.cursor.position)
              (numLines s.doc - 1)))).position = true
      rw [moveTo_position]
      exact isBoundary_lineStart s.doc _ (relativeTargetLine_lt s.doc dir count _)
    · rw [locate_relativeLine_eq]
      by_cases hcl : relativeTargetLine dir count (lineNumForPos s.doc s.cursor.position)
          (numLines s.doc - 1) = lineNumForPos s.doc s.cursor.position
      · rw [locateRelativeLine_clamped dir count s.doc s.tabSize s.cursor hcl]
        exact hb
      · rw [locateRelativeLine_walk dir count s.doc s.tabSize s.cursor _ _ rfl hcl rfl]
        obtain ⟨j, hj, hpos⟩ := advanceToCol_pos_shape s.tabSize
          (lineAt s.doc (relativeTargetLine dir count
            (lineNumForPos s.doc s.cursor.position) (numLines s.doc - 1))).content
          (lineStartOf s.doc (relativeTargetLine dir count
            (lineNumForPos s.doc s.cursor.position) (numLines s.doc - 1))) 0
          (colOfPosAux s.tabSize
            (lineAt s.doc (lineNumForPos s.doc s.cursor.position)).content
            (lineStartOf s.doc (lineNumForPos s.doc s.cursor.position))
            s.cursor.position 0 + s.cursor.logicalOffset)
        show isBoundary s.doc (advanceToCol s.tabSize _ _ 0 _).1 = true
        rw [hpos]
        exact isBoundary_lineContent s.doc _ j (relativeTargetLine_lt s.doc dir count _)
    · cases dir
      · show isBoundary s.doc
          (moveTo s.cursor
            (if inc then contentEndOf s.doc (lineNumForPos s.doc s.cursor.position)
             else
               match (lineAt s.doc (lineNumForPos s.doc s.cursor.position)).content.getLast? with
               | none => lineStartOf s.doc (lineNumForPos s.doc s.cursor.position)
               | some gc =>
                 contentEndOf s.doc (lineNumForPos s.doc s.cursor.position) -
                   gc.width)).position = true
        rw [moveTo_position]
        cases inc
        · rw [if_neg (by simp)]
          rcases hgl : (lineAt s.doc
              (lineNumForPos s.doc s.cursor.position)).content.getLast? with _ | gc
          · simp only [hgl]
            exact isBoundary_lineStart s.doc _ (lineNumForPos_lt s.doc s.cursor.position)
          · simp only [hgl]
            exact isBoundary_lastClusterStart s.doc _
              (lineNumForPos_lt s.doc s.cursor.position) hgl
        · rw [if_pos rfl]
          exact isBoundary_contentEnd s.doc _ (lineNumForPos_lt s.doc s.cursor.position)
      · show isBoundary s.doc
          (moveTo s.cursor
            (lineStartOf s.doc (lineNumForPos s.doc s.cursor.position))).position = true
        rw [moveTo_position]
        exact isBoundary_lineStart s.doc _ (lineNumForPos_lt s.doc s.cursor.position)
    · show isBoundary s.doc
        (moveTo s.cursor
          (nonWsAux (suffixFrom s.doc s.cursor.position) s.cursor.position)).position = true
      rw [moveTo_position]
      obtain ⟨zs, hd, hw⟩ := suffixFrom_split hv hb
      obtain ⟨ys, hys⟩ : ∃ ys, suffixFrom s.doc s.cursor.position = ys := ⟨_, rfl⟩
      rw [hys] at hd ⊢
      rw [← hw]
      exact nonWsAux_boundary ys zs s.doc hd
    · show isBoundary s.doc
        (moveTo s.cursor (lineStartOf s.doc (min n (numLines s.doc - 1)))).position = true
      rw [moveTo_position]
      exact isBoundary_lineStart s.doc _ (by have := numLines_pos s.doc; omega)
    · show isBoundary s.doc
        (moveTo s.cursor (lineStartOf s.doc (numLines s.doc - 1))).position = true
      rw [moveTo_position]
      exact isBoundary_lineStart s.doc _ (by have := numLines_pos s.doc; omega)
  exact ⟨isBoundary_le main, main⟩

theorem locate_inBounds_witness :
    ValidDoc docAbcdEfgh ∧ isBoundary docAbcdEfgh (4 : Nat) = true ∧
    ((locate (Locator.charInLine Direction.backward 3 true)
        ⟨docAbcdEfgh, 4, ⟨4, 0⟩⟩).position ≤ docWidth docAbcdEfgh ∧
      isBoundary docAbcdEfgh
        (locate (Locator.charInLine Direction.backward 3 true)
          ⟨docAbcdEfgh, 4, ⟨4, 0⟩⟩).position = true) :=
  ⟨by decide, by decide,
    locate_inBounds ⟨docAbcdEfgh, 4, ⟨4, 0⟩⟩
      (Locator.charInLine Direction.backward 3 true) (by decide) (by decide)⟩

end Aretext
